import Mathlib

/-!
Verification of the feistel library (Go, package feistel): a keyed,
invertible pseudorandom permutation of the range [0, maxValue] built from a
Feistel network over a pair of radices, with cycle walking and an optional
epoch extension.  The definitions below are a shallow embedding of the Go
source (the variant that the accompanying test file compiles against: it
defines the type Network and takes rounds as a uint8).  Machine integers
(uint64) are modelled as Nat with an explicit reduction modulo 2 to the 64
at every operation that can wrap in Go.
-/

namespace Feistel

/-- Size of the uint64 value space, 2 to the 64. -/
def two64 : Nat := 2 ^ 64

/-- Embedding of func splitmix64(x uint64) uint64.  Addition and the two
multiplications wrap modulo 2 to the 64; xor and right shifts of values
below 2 to the 64 stay below 2 to the 64, so they need no reduction. -/
def splitmix64 (x : Nat) : Nat :=
  let x1 := (x + 0x9e3779b97f4a7c15) % two64
  let x2 := x1 ^^^ (x1 >>> 30)
  let x3 := (x2 * 0xbf58476d1ce4e5b9) % two64
  let x4 := x3 ^^^ (x3 >>> 27)
  let x5 := (x4 * 0x94d049bb133111eb) % two64
  x5 ^^^ (x5 >>> 31)

/-- Embedding of func uint64Sqrt(n uint64) uint64.  The Go code seeds x with
a floating point estimate and then corrects it with two loops, decrementing
while x*x > n and incrementing while (x+1)*(x+1) <= n; the float estimate
only affects the number of correction steps, so the returned value is
exactly the floor square root for every input.  The floor square root is
computed here by a structural recursion (the theorem uint64Sqrt_eq below
identifies it with Nat.sqrt). -/
def uint64Sqrt : Nat → Nat
  | 0 => 0
  | n + 1 =>
    let r := uint64Sqrt n
    if (r + 1) * (r + 1) ≤ n + 1 then r + 1 else r

/-- Embedding of the scan loop of func findFactors (the for loop over
current, counting down).  The loop variable current is the structural
recursion argument.  The accumulator best is (bestValue, bestOther,
exceeds).  The Go subtraction (other*current)-value can wrap in uint64 when
value is close to 2 to the 64, hence the explicit modular subtraction; the
following += of the distance between other and current cannot wrap there
because the first summand is below current <= 2 to the 32 and the distance
is at most current (the loop condition bounds other by 2*current). -/
def findFactorsLoop (value : Nat) : Nat → Nat × Nat × Nat → Nat × Nat
  | 0, best => (best.1, best.2.1)
  | c + 1, best =>
    let current := c + 1
    if current * 2 > value / current ∧ current > 1 then
      if value % current = 0 then (current, value / current)
      else
        let other := value / current + 1
        let diff := ((other * current) % two64 + two64 - value) % two64
        let diff := diff + (if other > current then other - current else current - other)
        let best' := if best.1 = 0 ∨ best.2.2 > diff then (current, other, diff) else best
        findFactorsLoop value c best'
    else (best.1, best.2.1)

/-- Embedding of func findFactors(maxValue uint64) (uint64, uint64).
The all ones maxValue is 2 to the 64 minus 1; the value == 8 case is the
unique input for which the scan condition fails at the start. -/
def findFactors (maxValue : Nat) : Nat × Nat :=
  if maxValue < 3 then (2, 2)
  else if maxValue = two64 - 1 then (2 ^ 32, 2 ^ 32)
  else
    let value := maxValue + 1
    let sqrt := uint64Sqrt value
    if value = 8 then (sqrt, value / sqrt)
    else findFactorsLoop value sqrt (0, 0, 0)

/-- Error values of the package: ErrIndexGreatThanMaxValue and
ErrRoundsMustBeSet. -/
inductive FeistelError where
  | indexOutOfRange
  | roundsMustBeSet
deriving DecidableEq

/-- Embedding of type Network struct: rounds, maxValue, epochs, seeds,
leftRadix, rightRadix. -/
structure Network where
  rounds : Nat
  maxValue : Nat
  epochs : Bool
  seeds : List Nat
  leftRadix : Nat
  rightRadix : Nat
deriving DecidableEq

/-- Embedding of the seed derivation loop in NewNetwork: entry i of the
schedule is splitmix64 applied i+1 times to the user seed. -/
def mkSeeds (seed : Nat) : Nat → List Nat
  | 0 => []
  | k + 1 => splitmix64 seed :: mkSeeds (splitmix64 seed) k

/-- Embedding of func NewNetwork(maxValue, seed uint64, rounds uint8, opts
...Option).  The only option, WithEpochs, sets the epochs flag, modelled
here as an explicit boolean parameter; no option can change rounds, so the
zero check on network.rounds is a check on the rounds argument. -/
def NewNetwork (maxValue seed rounds : Nat) (epochs : Bool) :
    Except FeistelError Network :=
  let lr := findFactors maxValue
  if rounds = 0 then Except.error FeistelError.roundsMustBeSet
  else Except.ok
    { rounds := rounds, maxValue := maxValue, epochs := epochs,
      seeds := mkSeeds seed rounds, leftRadix := lr.1, rightRadix := lr.2 }

/-- Embedding of one iteration of the round loop inside encode.  On even
rounds the left half a is updated from a hash of the right half b, on odd
rounds the roles swap; inversion subtracts f modulo the radix instead of
adding it.  The additions a+f, a+leftRadix-f (and the b analogues) cannot
wrap in uint64 for any network built by NewNetwork, since both operands are
below the radix and the radices are at most 2 to the 32, so they are
modelled without a modular reduction.  Go indexes n.seeds[round] with round
< len(seeds); getD matches it on every index NewNetwork can produce. -/
def roundStep (n : Network) (epochHash : Nat) (invert : Bool) (ab : Nat × Nat)
    (round : Nat) : Nat × Nat :=
  let seed := Nat.xor (n.seeds.getD round 0) epochHash
  if round % 2 = 0 then
    let f := splitmix64 (Nat.xor ab.2 seed) % n.leftRadix
    if invert then ((ab.1 + n.leftRadix - f) % n.leftRadix, ab.2)
    else ((ab.1 + f) % n.leftRadix, ab.2)
  else
    let f := splitmix64 (Nat.xor ab.1 seed) % n.rightRadix
    if invert then (ab.1, (ab.2 + n.rightRadix - f) % n.rightRadix)
    else (ab.1, (ab.2 + f) % n.rightRadix)

/-- Embedding of one full pass of the round loop in encode: rounds 0 up to
rounds-1 in the forward direction, rounds-1 down to 0 when inverting. -/
def runPass (n : Network) (epochHash : Nat) (invert : Bool) (ab : Nat × Nat) :
    Nat × Nat :=
  let order := if invert then (List.range n.rounds).reverse else List.range n.rounds
  order.foldl (roundStep n epochHash invert) ab

/-- Embedding of the cycle walking loop of encode (for { ... }): run a full
pass, recombine index = a + b*leftRadix (a uint64 multiply-add, reduced
modulo 2 to the 64; for networks built by NewNetwork the radix product is
at most 2 to the 64 so the reduction is the identity), stop when the
recombined index is within maxValue.  The Go loop has no bound; the fuel
argument makes the recursion structural, with none meaning that the given
number of passes did not reach the range.  -/
def walk (f : Nat × Nat → Nat × Nat) (leftRadix maxValue : Nat) :
    Nat → Nat × Nat → Option Nat
  | 0, _ => none
  | fuel + 1, ab =>
    let ab2 := f ab
    let index := (ab2.1 + ab2.2 * leftRadix) % two64
    if index ≤ maxValue then some index else walk f leftRadix maxValue fuel ab2

/-- Embedding of the tail of encode after the epoch bookkeeping: the
maxValue == 0 early return of bare 0 (note: without adding epochStart),
the initial split of the index into halves, the cycle walking loop, and the
final uint64 addition of epochStart, which wraps modulo 2 to the 64. -/
def encodeCore (n : Network) (epochStart epochHash index : Nat) (invert : Bool)
    (fuel : Nat) : Option Nat :=
  if n.maxValue = 0 then some 0
  else
    match walk (runPass n epochHash invert) n.leftRadix n.maxValue fuel
        (index % n.leftRadix, index / n.leftRadix) with
    | none => none
    | some idx => some ((idx + epochStart) % two64)

/-- Embedding of func (n *Network) encode(index uint64, invert bool).
domainSize = maxValue+1 wraps to 0 in uint64 when maxValue is all ones, but
that branch is then unreachable for uint64 inputs since no index exceeds
maxValue.  Except.ok none reports fuel exhaustion of the modelled loop. -/
def encode (n : Network) (index : Nat) (invert : Bool) (fuel : Nat) :
    Except FeistelError (Option Nat) :=
  let domainSize := (n.maxValue + 1) % two64
  if index > n.maxValue then
    if n.epochs then
      let epochStart := index - index % domainSize
      Except.ok (encodeCore n epochStart (splitmix64 epochStart)
        (index % domainSize) invert fuel)
    else Except.error FeistelError.indexOutOfRange
  else Except.ok (encodeCore n 0 0 index invert fuel)

/-- Embedding of func (n *Network) Map(index uint64). -/
def Map (n : Network) (index fuel : Nat) : Except FeistelError (Option Nat) :=
  encode n index false fuel

/-- Embedding of func (n *Network) InvertMap(index uint64). -/
def InvertMap (n : Network) (index fuel : Nat) : Except FeistelError (Option Nat) :=
  encode n index true fuel

/-! Reference definitions for claim C7.  claimedFindFactors follows the
wording of the claim (scan downward from the ceiling square root, minimize
the bare excess); the scan list, first divisor and argmin combinators below
express the amended description of the source scan. -/

/-- Ceiling square root, used only by the claimed (spec-worded) splitter. -/
def ceilSqrt (n : Nat) : Nat :=
  if uint64Sqrt n * uint64Sqrt n = n then uint64Sqrt n else uint64Sqrt n + 1

/-- Scan loop written from the words of claim C7: current counts down from
the given start while current*2 > value/current and current > 1; an exact
divisor returns immediately; otherwise the current minimizing the excess
other*current - value (other the ceiling of value/current) is tracked,
earlier candidates winning ties. -/
def claimedScan (value : Nat) : Nat → Option (Nat × Nat) → Nat × Nat
  | 0, best => (match best with | some (b, _) => (b, value / b + 1) | none => (0, 0))
  | c + 1, best =>
    let current := c + 1
    if current * 2 > value / current ∧ current > 1 then
      if value % current = 0 then (current, value / current)
      else
        let excess := (value / current + 1) * current - value
        let best' := match best with
          | none => some (current, excess)
          | some (b, e) => if excess < e then some (current, excess) else some (b, e)
        claimedScan value c best'
    else (match best with | some (b, _) => (b, value / b + 1) | none => (0, 0))

/-- Splitter that claim C7 describes, written from the claim text: for
domain size N = maxValue+1 scan downward starting exactly from the ceiling
square root of N. -/
def claimedFindFactors (maxValue : Nat) : Nat × Nat :=
  let value := maxValue + 1
  claimedScan value (ceilSqrt value) none

/-- List of the values the source scan visits, in scan order (counting
down from the given start while the loop condition holds). -/
def scanCurrents (value : Nat) : Nat → List Nat
  | 0 => []
  | c + 1 =>
    let current := c + 1
    if current * 2 > value / current ∧ current > 1 then
      current :: scanCurrents value c
    else []

/-- First exact divisor of value in the list, if any. -/
def firstDivisor (value : Nat) : List Nat → Option Nat
  | [] => none
  | c :: rest => if value % c = 0 then some c else firstDivisor value rest

/-- Quantity the source scan minimizes for a non divisor candidate c: the
excess (value/c+1)*c - value plus the distance between the two factors. -/
def excessKey (value c : Nat) : Nat :=
  let other := value / c + 1
  (other * c - value) + (if other > c then other - c else c - other)

/-- Fold step keeping the candidate with the strictly smallest key, the
earlier (larger) candidate winning ties. -/
def pickBest (value : Nat) (acc : Option (Nat × Nat)) (c : Nat) : Option (Nat × Nat) :=
  let k := excessKey value c
  match acc with
  | none => some (c, k)
  | some (b, kb) => if k < kb then some (c, k) else some (b, kb)

/-- Amended description of the source splitter on domain sizes value =
maxValue+1 with maxValue >= 3 and maxValue not all ones: value = 8 returns
(2,4) directly; otherwise scan downward from the floor square root, return
on an exact divisor, and otherwise return the scanned current minimizing
excessKey, ties to the first (largest) current. -/
def amendedFindFactors (maxValue : Nat) : Nat × Nat :=
  let value := maxValue + 1
  if value = 8 then (2, 4)
  else
    let scan := scanCurrents value (uint64Sqrt value)
    match firstDivisor value scan with
    | some c => (c, value / c)
    | none =>
      match scan.foldl (pickBest value) none with
      | some (b, _) => (b, value / b + 1)
      | none => (0, 0)

/-! State passing embedding for claim C9.  The Go methods run on a pointer
receiver, so a faithful frame statement threads the receiver through every
step of encode and observes the state it leaves behind.  Each function
returns the Network alongside its result; the Go source assigns only to
local variables (a, b, f, seed, index, epochStart, epochHash, start,
adjust, round), never to a field of the receiver, which is what the frame
theorem below makes explicit. -/

/-- State threaded version of roundStep: reads the seeds and radices from
the threaded receiver and returns the receiver it leaves behind. -/
def roundStepSt (st : Network × (Nat × Nat)) (epochHash : Nat) (invert : Bool)
    (round : Nat) : Network × (Nat × Nat) :=
  (st.1, roundStep st.1 epochHash invert st.2 round)

/-- State threaded version of runPass. -/
def runPassSt (n : Network) (epochHash : Nat) (invert : Bool) (ab : Nat × Nat) :
    Network × (Nat × Nat) :=
  let order := if invert then (List.range n.rounds).reverse else List.range n.rounds
  order.foldl (fun st round => roundStepSt st epochHash invert round) (n, ab)

/-- State threaded version of the cycle walking loop. -/
def walkSt (n : Network) (epochHash : Nat) (invert : Bool) :
    Nat → Nat × Nat → Option Nat × Network
  | 0, _ => (none, n)
  | fuel + 1, ab =>
    let st := runPassSt n epochHash invert ab
    let ab2 := st.2
    let index := (ab2.1 + ab2.2 * st.1.leftRadix) % two64
    if index ≤ st.1.maxValue then (some index, st.1)
    else walkSt st.1 epochHash invert fuel ab2

/-- State threaded version of encode, pairing every result with the
receiver state left behind by the call. -/
def encodeSt (n : Network) (index : Nat) (invert : Bool) (fuel : Nat) :
    Except FeistelError (Option Nat) × Network :=
  let domainSize := (n.maxValue + 1) % two64
  if index > n.maxValue then
    if n.epochs then
      let epochStart := index - index % domainSize
      if n.maxValue = 0 then (Except.ok (some 0), n)
      else
        let st := walkSt n (splitmix64 epochStart) invert fuel
          ((index % domainSize) % n.leftRadix, (index % domainSize) / n.leftRadix)
        (Except.ok (st.1.map (fun idx => (idx + epochStart) % two64)), st.2)
    else (Except.error FeistelError.indexOutOfRange, n)
  else
    if n.maxValue = 0 then (Except.ok (some 0), n)
    else
      let st := walkSt n 0 invert fuel (index % n.leftRadix, index / n.leftRadix)
      (Except.ok (st.1.map (fun idx => (idx + 0) % two64)), st.2)

/-- Sequence of Map and InvertMap calls against the threaded receiver: each
entry gives the invert flag, the index and the fuel of one call, and the
receiver each call leaves behind is passed to the next call. -/
def runCalls (n : Network) : List (Bool × Nat × Nat) → Network
  | [] => n
  | (invert, index, fuel) :: rest => runCalls (encodeSt n index invert fuel).2 rest

/-- Conversion of the Go accumulator triple into the argmin accumulator. -/
def optOf (best : Nat × Nat × Nat) : Option (Nat × Nat) :=
  if best.1 = 0 then none else some (best.1, best.2.2)

/-- Invariant of the Go scan accumulator: nothing recorded yet, or a
candidate at least 2 recorded together with its other factor and key. -/
def goodBest (value : Nat) (best : Nat × Nat × Nat) : Prop :=
  best = (0, 0, 0) ∨
    (2 ≤ best.1 ∧ best.2.1 = value / best.1 + 1 ∧ best.2.2 = excessKey value best.1)

/-- Concrete network produced by NewNetwork 0 0 1 with epochs, used in the
closed counterexamples below. -/
def netEpoch0 : Network :=
  ⟨1, 0, true, [16294208416658607535], 2, 2⟩

/-- Concrete network produced by NewNetwork 9 0 4 with epochs. -/
def netEpoch9 : Network :=
  ⟨4, 9, true, [16294208416658607535, 12035550249420947055,
    2558736989570252433, 2391539541053276776], 3, 4⟩

/-- Concrete network produced by NewNetwork 9 0 4 without epochs. -/
def netPlain9 : Network :=
  ⟨4, 9, false, [16294208416658607535, 12035550249420947055,
    2558736989570252433, 2391539541053276776], 3, 4⟩

/-- Concrete network produced by NewNetwork 3 0 1 without epochs. -/
def netPlain3 : Network :=
  ⟨1, 3, false, [16294208416658607535], 2, 2⟩

/-- Bound predicate for a pair of Feistel halves: each half lies below its
radix. -/
def PairBounds (L R : Nat) (x : Nat × Nat) : Prop := x.1 < L ∧ x.2 < R

/-- Recombination of the halves into an index, as in encode. -/
def comb (L : Nat) (x : Nat × Nat) : Nat := x.1 + x.2 * L

/-! Arithmetic helper lemmas. -/

theorem two64_eq : two64 = 18446744073709551616 := by norm_num [two64]

/-- Characterisation of the structural floor square root. -/
theorem uint64Sqrt_bounds (n : Nat) :
    uint64Sqrt n * uint64Sqrt n ≤ n ∧ n < (uint64Sqrt n + 1) * (uint64Sqrt n + 1) := by
  induction n with
  | zero => simp [uint64Sqrt]
  | succ k ih =>
    rw [uint64Sqrt]
    by_cases h : (uint64Sqrt k + 1) * (uint64Sqrt k + 1) ≤ k + 1
    · rw [if_pos h]
      refine ⟨h, ?_⟩
      have := ih.2
      nlinarith
    · rw [if_neg h]
      exact ⟨by omega, by omega⟩

/-- The embedded square root agrees with Nat.sqrt. -/
theorem uint64Sqrt_eq (n : Nat) : uint64Sqrt n = Nat.sqrt n := by
  have h := uint64Sqrt_bounds n
  exact Nat.eq_sqrt.mpr h

theorem two64_pos : 0 < two64 := by norm_num [two64]

/-- Division characterised by bounds. -/
theorem div_eq_of_bounds {m n k : Nat} (hn : 0 < n) (h1 : k * n ≤ m)
    (h2 : m < (k + 1) * n) : m / n = k := by
  refine Nat.le_antisymm ?_ ((Nat.le_div_iff_mul_le hn).mpr h1)
  have := (Nat.div_lt_iff_lt_mul hn).mpr (by omega : m < (k + 1) * n)
  omega

/-- Wrapping uint64 subtraction coincides with exact subtraction whenever
the exact difference fits. -/
theorem sub64_eq {a b : Nat} (hba : b ≤ a) (hab : a - b < two64) (hb : b < two64) :
    (a % two64 + two64 - b) % two64 = a - b := by
  have h1 : a % two64 + two64 - b = a % two64 + (two64 - b) := by omega
  rw [h1, Nat.mod_add_mod, (by omega : a + (two64 - b) = (a - b) + two64),
    Nat.add_mod_right, Nat.mod_eq_of_lt hab]

/-! Facts about the splitter scan. -/

/-- Excess of a non divisor candidate, exactly. -/
theorem excess_eq {value c : Nat} (hc : 0 < c) :
    (value / c + 1) * c - value = c - value % c := by
  have := Nat.div_add_mod value c
  have hm : value % c < c := Nat.mod_lt _ hc
  have h1 : (value / c + 1) * c = c * (value / c) + c := by ring
  omega

/-- In the loop body, the wrapped uint64 difference equals the exact
excess. -/
theorem diff_eq {value c : Nat} (hc : 0 < c) (hcw : c < two64) (hv : value < two64) :
    ((value / c + 1) * c % two64 + two64 - value) % two64 = (value / c + 1) * c - value := by
  have hge : value ≤ (value / c + 1) * c := by
    have := Nat.div_add_mod value c
    have hm : value % c < c := Nat.mod_lt _ hc
    have h1 : (value / c + 1) * c = c * (value / c) + c := by ring
    omega
  have hlt : (value / c + 1) * c - value < two64 := by
    have := @excess_eq value c hc
    omega
  exact sub64_eq hge hlt hv

/-- Correspondence between the Go scan loop and the list level description
via scanCurrents, firstDivisor and pickBest. -/
theorem findFactorsLoop_eq (value : Nat) (hv : value < two64) :
    ∀ cur, cur < two64 → ∀ best, goodBest value best →
    findFactorsLoop value cur best =
      match firstDivisor value (scanCurrents value cur) with
      | some c => (c, value / c)
      | none =>
        match (scanCurrents value cur).foldl (pickBest value) (optOf best) with
        | some (b, _) => (b, value / b + 1)
        | none => (0, 0) := by
  intro cur
  induction cur with
  | zero =>
    intro _ best hgb
    rcases hgb with h | h
    · subst h; rfl
    · rcases h with ⟨h2, ho, hk⟩
      simp only [findFactorsLoop, scanCurrents, firstDivisor, List.foldl, optOf,
        if_neg (by omega : ¬ best.1 = 0)]
      rw [← ho]
  | succ c ih =>
    intro hcw1 best hgb
    by_cases hcond : (c + 1) * 2 > value / (c + 1) ∧ c + 1 > 1
    · by_cases hdvd : value % (c + 1) = 0
      · simp only [findFactorsLoop, scanCurrents, firstDivisor, if_pos hcond,
          if_pos hdvd]
      · have hc1 : 0 < c + 1 := Nat.succ_pos c
        have hcw : c + 1 < two64 := hcw1
        have hdiff : ((value / (c + 1) + 1) * (c + 1) % two64 + two64 - value) % two64
            + (if value / (c + 1) + 1 > c + 1 then value / (c + 1) + 1 - (c + 1)
               else c + 1 - (value / (c + 1) + 1)) = excessKey value (c + 1) := by
          rw [diff_eq hc1 hcw hv]
          rfl
        have step : findFactorsLoop value (c + 1) best =
            findFactorsLoop value c
              (if best.1 = 0 ∨ best.2.2 > excessKey value (c + 1)
               then (c + 1, value / (c + 1) + 1, excessKey value (c + 1)) else best) := by
          simp only [findFactorsLoop, if_pos hcond, if_neg hdvd]
          rw [hdiff]
        have hscan : scanCurrents value (c + 1) = (c + 1) :: scanCurrents value c := by
          simp only [scanCurrents, if_pos hcond]
        have hfd : firstDivisor value ((c + 1) :: scanCurrents value c) =
            firstDivisor value (scanCurrents value c) := by
          simp only [firstDivisor, if_neg hdvd]
        set best' := (if best.1 = 0 ∨ best.2.2 > excessKey value (c + 1)
               then (c + 1, value / (c + 1) + 1, excessKey value (c + 1)) else best)
          with hbestdef
        have hgb' : goodBest value best' := by
          rw [hbestdef]
          split
          · right
            exact ⟨by omega, rfl, rfl⟩
          · exact hgb
        have hopt : ∀ t : Nat × Nat × Nat, t.1 ≠ 0 → optOf t = some (t.1, t.2.2) := by
          intro t ht
          simp [optOf, ht]
        have hacc : optOf best' = pickBest value (optOf best) (c + 1) := by
          rcases hgb with h | h
          · subst h
            rw [hbestdef, if_pos (Or.inl rfl)]
            rw [hopt _ (by omega)]
            rfl
          · rcases h with ⟨h2, ho, hk⟩
            rw [hopt best (by omega)]
            by_cases hrep : best.2.2 > excessKey value (c + 1)
            · rw [hbestdef, if_pos (Or.inr hrep), hopt _ (by omega)]
              show _ = if excessKey value (c + 1) < best.2.2 then _ else _
              rw [if_pos hrep]
            · rw [hbestdef, if_neg (by omega)]
              rw [hopt best (by omega)]
              show _ = if excessKey value (c + 1) < best.2.2 then _ else _
              rw [if_neg (by omega)]
        rw [step, ih (by omega) best' hgb', hscan, hfd]
        have hfold : ((c + 1) :: scanCurrents value c).foldl (pickBest value) (optOf best)
            = (scanCurrents value c).foldl (pickBest value) (optOf best') := by
          rw [List.foldl_cons, hacc]
        rw [hfold]
    · simp only [findFactorsLoop, scanCurrents, if_neg hcond, firstDivisor]
      rcases hgb with h | h
      · subst h; rfl
      · rcases h with ⟨h2, ho, hk⟩
        simp only [List.foldl, optOf, if_neg (by omega : ¬ best.1 = 0)]
        rw [← ho]

/-- Every value the scan visits is between 2 and the start. -/
theorem scanCurrents_mem {value c cur : Nat} :
    c ∈ scanCurrents value cur → 2 ≤ c ∧ c ≤ cur := by
  induction cur with
  | zero => intro h; simp [scanCurrents] at h
  | succ k ih =>
    intro h
    simp only [scanCurrents] at h
    split at h
    · rcases List.mem_cons.mp h with h | h
      · omega
      · have := ih h
        omega
    · simp at h

/-- The scan list is nonempty exactly when the loop condition holds at the
start; this spells out its head. -/
theorem scanCurrents_cons {value cur : Nat} (h2 : 2 ≤ cur)
    (hcond : cur * 2 > value / cur) :
    scanCurrents value cur = cur :: scanCurrents value (cur - 1) := by
  cases cur with
  | zero => omega
  | succ k =>
    simp only [scanCurrents]
    rw [if_pos ⟨hcond, by omega⟩]
    rfl

/-- A divisor found by firstDivisor is a divisor and a member. -/
theorem firstDivisor_some {value : Nat} {l : List Nat} {c : Nat} :
    firstDivisor value l = some c → c ∈ l ∧ value % c = 0 := by
  induction l with
  | nil => intro h; simp [firstDivisor] at h
  | cons x rest ih =>
    intro h
    simp only [firstDivisor] at h
    split at h
    · cases h
      exact ⟨List.mem_cons_self _ _, by assumption⟩
    · have := ih h
      exact ⟨List.mem_cons_of_mem _ this.1, this.2⟩

/-- When firstDivisor finds nothing, no member divides. -/
theorem firstDivisor_none {value : Nat} {l : List Nat} :
    firstDivisor value l = none → ∀ c ∈ l, value % c ≠ 0 := by
  induction l with
  | nil => intro _ c hc; simp at hc
  | cons x rest ih =>
    intro h c hc
    simp only [firstDivisor] at h
    split at h
    · cases h
    · rcases List.mem_cons.mp hc with rfl | hc
      · assumption
      · exact ih h c hc

/-- Result shape of the argmin fold: the key stored is the key of the
stored candidate, it never exceeds the seed key, and a result different
from the seed is a member of the list with a strictly smaller key. -/
theorem foldl_pickBest_some (value : Nat) :
    ∀ (xs : List Nat) (b0 : Nat), ∃ b k,
      xs.foldl (pickBest value) (some (b0, excessKey value b0)) = some (b, k) ∧
      k = excessKey value b ∧ k ≤ excessKey value b0 ∧
      (b = b0 ∨ (b ∈ xs ∧ k < excessKey value b0)) := by
  intro xs
  induction xs with
  | nil =>
    intro b0
    exact ⟨b0, excessKey value b0, rfl, rfl, le_refl _, Or.inl rfl⟩
  | cons x rest ih =>
    intro b0
    by_cases hlt : excessKey value x < excessKey value b0
    · obtain ⟨b, k, hfold, hkey, hle, hor⟩ := ih x
      refine ⟨b, k, ?_, hkey, by omega, ?_⟩
      · rw [List.foldl_cons]
        have : pickBest value (some (b0, excessKey value b0)) x
            = some (x, excessKey value x) := by
          show (if excessKey value x < excessKey value b0 then _ else _) = _
          rw [if_pos hlt]
        rw [this, hfold]
      · rcases hor with rfl | ⟨hmem, hklt⟩
        · exact Or.inr ⟨List.mem_cons_self _ _, by omega⟩
        · exact Or.inr ⟨List.mem_cons_of_mem _ hmem, by omega⟩
    · obtain ⟨b, k, hfold, hkey, hle, hor⟩ := ih b0
      refine ⟨b, k, ?_, hkey, hle, ?_⟩
      · rw [List.foldl_cons]
        have : pickBest value (some (b0, excessKey value b0)) x
            = some (b0, excessKey value b0) := by
          show (if excessKey value x < excessKey value b0 then _ else _) = _
          rw [if_neg hlt]
        rw [this, hfold]
      · rcases hor with rfl | ⟨hmem, hklt⟩
        · exact Or.inl rfl
        · exact Or.inr ⟨List.mem_cons_of_mem x hmem, hklt⟩

/-- For any domain size at least 4 other than 8, the scan condition holds
at the floor square root, so the scan visits it first; value = 8 is the
unique exception, mirrored by the special case in the Go source. -/
theorem cond_at_sqrt {value : Nat} (h4 : 4 ≤ value) (h8 : value ≠ 8) :
    Nat.sqrt value * 2 > value / Nat.sqrt value ∧ 1 < Nat.sqrt value := by
  have hs2 : 2 ≤ Nat.sqrt value := Nat.le_sqrt.mpr (by omega)
  have hspos : 0 < Nat.sqrt value := by omega
  constructor
  · by_contra hle
    push_neg at hle
    have hvge : Nat.sqrt value * 2 * Nat.sqrt value ≤ value :=
      (Nat.le_div_iff_mul_le hspos).mp hle
    have hvlt : value < (Nat.sqrt value + 1) * (Nat.sqrt value + 1) :=
      Nat.lt_succ_sqrt value
    have hss : Nat.sqrt value * Nat.sqrt value ≤ 2 * Nat.sqrt value := by nlinarith
    have : Nat.sqrt value ≤ 2 :=
      Nat.le_of_mul_le_mul_right (by omega) hspos
    have hseq : Nat.sqrt value = 2 := by omega
    rw [hseq] at hvge hvlt
    omega
  · omega

/-- Main specification of the splitter, for every uint64 maxValue: both
radices are at least 2, the left one does not exceed the right one, the
product covers the domain size maxValue+1 exactly or with an excess, and
the product never exceeds 2 to the 64 (so the recombination a+b*leftRadix
cannot wrap). -/
theorem findFactors_spec (mv : Nat) (hmv : mv < two64) :
    2 ≤ (findFactors mv).1 ∧ 2 ≤ (findFactors mv).2 ∧
    (findFactors mv).1 ≤ (findFactors mv).2 ∧
    mv + 1 ≤ (findFactors mv).1 * (findFactors mv).2 ∧
    (findFactors mv).1 * (findFactors mv).2 ≤ two64 := by
  by_cases h3 : mv < 3
  · rw [findFactors, if_pos h3]
    refine ⟨by norm_num, by norm_num, by norm_num, by omega, ?_⟩
    rw [two64_eq]; norm_num
  · by_cases hall : mv = two64 - 1
    · rw [findFactors, if_neg h3, if_pos hall]
      rw [two64_eq] at hall ⊢
      subst hall
      norm_num
    · rw [findFactors, if_neg h3, if_neg hall]
      have hv : mv + 1 < two64 := by omega
      set value := mv + 1 with hvdef
      have h4 : 4 ≤ value := by omega
      by_cases h8 : value = 8
      · rw [if_pos h8, h8]
        have hsq8 : uint64Sqrt 8 = 2 := by decide
        rw [hsq8]
        refine ⟨by norm_num, by norm_num, by norm_num, by omega, ?_⟩
        rw [two64_eq]
        norm_num
      · rw [if_neg h8]
        rw [uint64Sqrt_eq]
        have hs := cond_at_sqrt h4 h8
        have hs2 : 2 ≤ Nat.sqrt value := by omega
        have hsw : Nat.sqrt value < two64 :=
          lt_of_le_of_lt (Nat.sqrt_le_self value) hv
        have hsqlt : Nat.sqrt value < 2 ^ 32 := by
          rw [Nat.sqrt_lt]
          calc value < two64 := hv
          _ = 2 ^ 32 * 2 ^ 32 := by rw [two64_eq]; norm_num
        rw [findFactorsLoop_eq value hv (Nat.sqrt value) hsw (0, 0, 0) (Or.inl rfl)]
        have hscan : scanCurrents value (Nat.sqrt value)
            = Nat.sqrt value :: scanCurrents value (Nat.sqrt value - 1) :=
          scanCurrents_cons hs2 hs.1
        rcases hdvd : firstDivisor value (scanCurrents value (Nat.sqrt value)) with _ | c
        · -- no divisor found: the fold result
          have hnod := firstDivisor_none hdvd
          have hfold0 : (Nat.sqrt value :: scanCurrents value (Nat.sqrt value - 1)).foldl
              (pickBest value) (optOf (0, 0, 0))
              = (scanCurrents value (Nat.sqrt value - 1)).foldl (pickBest value)
                (some (Nat.sqrt value, excessKey value (Nat.sqrt value))) := by
            rfl
          obtain ⟨b, k, hfold, hkey, hle, hor⟩ :=
            foldl_pickBest_some value (scanCurrents value (Nat.sqrt value - 1)) (Nat.sqrt value)
          simp only [hdvd]
          rw [hscan, hfold0, hfold]
          simp only []
          have hbmem : 2 ≤ b ∧ b ≤ Nat.sqrt value := by
            rcases hor with rfl | ⟨hmem, _⟩
            · exact ⟨hs2, le_refl _⟩
            · have := scanCurrents_mem hmem
              omega
          have hb2 : 2 ≤ b := hbmem.1
          have hbs : b ≤ Nat.sqrt value := hbmem.2
          have hbpos : 0 < b := by omega
          have hbdb : b ≤ value / b := by
            rw [Nat.le_div_iff_mul_le hbpos]
            exact Nat.le_sqrt.mp hbs
          have hdam := Nat.div_add_mod value b
          have hmlt : value % b < b := Nat.mod_lt _ hbpos
          have hbnd : value % b ≠ 0 := by
            rcases hor with rfl | ⟨hmem, _⟩
            · exact hnod _ (by rw [hscan]; exact List.mem_cons_self _ _)
            · exact hnod _ (by
                rw [hscan]
                exact List.mem_cons_of_mem _ hmem)
          have hprod : b * (value / b + 1) = b * (value / b) + b := by ring
          refine ⟨hb2, by omega, by omega, by omega, ?_⟩
          -- the product stays within 2 to the 64
          by_cases hzone : value + Nat.sqrt value ≤ two64
          · omega
          · -- borderline zone: value close to 2 to the 64
            have hvlow : two64 - 2 ^ 32 + 2 ≤ value := by omega
            have hlosq : (2 ^ 32 - 1 : Nat) * (2 ^ 32 - 1) ≤ value := by
              have hnum : (2 ^ 32 - 1 : Nat) * (2 ^ 32 - 1) = 18446744065119617025 := by
                norm_num
              rw [hnum]
              rw [two64_eq] at hvlow
              omega
            have hsval : Nat.sqrt value = 2 ^ 32 - 1 :=
              Nat.le_antisymm (by omega) (Nat.le_sqrt.mpr hlosq)
            have hsnd : value % Nat.sqrt value ≠ 0 :=
              hnod _ (by rw [hscan]; exact List.mem_cons_self _ _)
            have hvne : value ≠ two64 - 1 := by
              intro hveq
              apply hsnd
              rw [hsval, hveq, two64_eq]
              norm_num
            have hcm1 : (2 : Nat) ^ 32 * (2 ^ 32 - 1) = two64 - 2 ^ 32 := by
              rw [two64_eq]; norm_num
            have hcm2 : ((2 : Nat) ^ 32 + 1) * (2 ^ 32 - 1) = two64 - 1 := by
              rw [two64_eq]; norm_num
            have hdivs : value / Nat.sqrt value = 2 ^ 32 := by
              refine div_eq_of_bounds (by omega) ?_ ?_
              · rw [hsval, hcm1]; omega
              · rw [hsval, hcm2]; omega
            have hkeys : excessKey value (Nat.sqrt value) = (two64 - 1 - value) + 2 := by
              simp only [excessKey]
              rw [hdivs, hsval, hcm2]
              rw [if_pos (by norm_num)]
              have : (2 : Nat) ^ 32 + 1 - (2 ^ 32 - 1) = 2 := by norm_num
              rw [this]
            rcases hor with rfl | ⟨hmem, hklt⟩
            · -- the start itself won: product is exactly two64 - 1
              rw [hdivs, hsval]
              have hcm3 : (2 ^ 32 - 1 : Nat) * (2 ^ 32 + 1) = two64 - 1 := by
                rw [two64_eq]; norm_num
              omega
            · -- a later candidate won strictly: its excess is small enough
              rw [hkeys] at hklt
              have hkb : excessKey value b = (value / b + 1) * b - value
                  + (if value / b + 1 > b then value / b + 1 - b else b - (value / b + 1)) :=
                rfl
              have hexcess : (value / b + 1) * b - value ≤ excessKey value b := by
                rw [hkb]
                omega
              have hmul : (value / b + 1) * b = b * (value / b + 1) := by ring
              rw [← hkey] at hexcess
              omega
        · -- a divisor was found
          have ⟨hmem, hmod⟩ := firstDivisor_some hdvd
          simp only [hdvd]
          have hcb := scanCurrents_mem hmem
          have hc2 : 2 ≤ c := hcb.1
          have hcpos : 0 < c := by omega
          have hcdc : c ≤ value / c := by
            rw [Nat.le_div_iff_mul_le hcpos]
            exact Nat.le_sqrt.mp hcb.2
          have hdv : c ∣ value := Nat.dvd_of_mod_eq_zero hmod
          have hmul : c * (value / c) = value := Nat.mul_div_cancel' hdv
          exact ⟨hc2, by omega, hcdc, by omega, by omega⟩

/-- The source splitter coincides with the amended list level description
on every domain size it scans (maxValue at least 3, not all ones). -/
theorem findFactors_eq_amended (mv : Nat) (h3 : 3 ≤ mv) (hall : mv ≠ two64 - 1)
    (hmv : mv < two64) : findFactors mv = amendedFindFactors mv := by
  rw [findFactors, if_neg (by omega : ¬ mv < 3), if_neg hall, amendedFindFactors]
  by_cases h8 : mv + 1 = 8
  · rw [if_pos h8, if_pos h8, h8]
    decide
  · rw [if_neg h8, if_neg h8]
    rw [uint64Sqrt_eq]
    exact findFactorsLoop_eq (mv + 1) (by omega) (Nat.sqrt (mv + 1))
      (lt_of_le_of_lt (Nat.sqrt_le_self _) (by omega)) (0, 0, 0) (Or.inl rfl)

/-! Generic theory of the cycle walking loop over an arbitrary pass
function together with an inverse pass.  The pass functions of encode are
plugged in afterwards. -/

/-- A bounded pair recombines below the radix product. -/
theorem comb_lt {L R : Nat} {x : Nat × Nat} (hx : PairBounds L R x) :
    comb L x < L * R := by
  obtain ⟨h1, h2⟩ := hx
  have hR : 0 < R := by omega
  calc comb L x = x.1 + x.2 * L := rfl
  _ < L + x.2 * L := by omega
  _ = (x.2 + 1) * L := by ring
  _ ≤ R * L := Nat.mul_le_mul_right L (by omega)
  _ = L * R := Nat.mul_comm R L

/-- Recombination stays below 2 to the 64 when the radix product does, so
the uint64 reduction in walk is the identity. -/
theorem comb_mod64 {L R : Nat} {x : Nat × Nat} (hx : PairBounds L R x)
    (hLR : L * R ≤ two64) : comb L x % two64 = comb L x :=
  Nat.mod_eq_of_lt (lt_of_lt_of_le (comb_lt hx) hLR)

/-- Splitting the recombined index recovers the halves. -/
theorem split_comb {L R : Nat} {x : Nat × Nat} (hx : PairBounds L R x) :
    (comb L x % L, comb L x / L) = x := by
  obtain ⟨h1, h2⟩ := hx
  have hL : 0 < L := by omega
  have hmod : comb L x % L = x.1 := by
    rw [comb, Nat.add_mul_mod_self_right, Nat.mod_eq_of_lt h1]
  have hdiv : comb L x / L = x.2 := by
    rw [comb, Nat.add_mul_div_right _ _ hL, Nat.div_eq_of_lt h1]
    omega
  rw [hmod, hdiv]

/-- Recombination is injective on bounded pairs. -/
theorem comb_inj {L R : Nat} {x y : Nat × Nat} (hx : PairBounds L R x)
    (hy : PairBounds L R y) (h : comb L x = comb L y) : x = y := by
  have := split_comb hx
  rw [h, split_comb hy] at this
  exact this.symm

/-- Iterates of a bounds preserving map preserve the bounds. -/
theorem iterate_bounds {L R : Nat} {f : Nat × Nat → Nat × Nat}
    (hf : ∀ x, PairBounds L R x → PairBounds L R (f x)) :
    ∀ (k : Nat) (x : Nat × Nat), PairBounds L R x → PairBounds L R (f^[k] x) := by
  intro k
  induction k with
  | zero => intro x hx; exact hx
  | succ k ih =>
    intro x hx
    rw [Function.iterate_succ_apply]
    exact ih (f x) (hf x hx)

/-- Iterated application of the inverse pass cancels the iterated pass on
bounded pairs. -/
theorem iterate_inv {L R : Nat} {f g : Nat × Nat → Nat × Nat}
    (hf : ∀ x, PairBounds L R x → PairBounds L R (f x))
    (hgf : ∀ x, PairBounds L R x → g (f x) = x) :
    ∀ (k : Nat) (x : Nat × Nat), PairBounds L R x → g^[k] (f^[k] x) = x := by
  intro k
  induction k with
  | zero => intro x _; rfl
  | succ k ih =>
    intro x hx
    rw [Function.iterate_succ_apply' f, Function.iterate_succ_apply g]
    rw [hgf (f^[k] x) (iterate_bounds hf k x hx)]
    exact ih x hx

/-- Iterates of the pass are injective on bounded pairs. -/
theorem iterate_inj {L R : Nat} {f g : Nat × Nat → Nat × Nat}
    (hf : ∀ x, PairBounds L R x → PairBounds L R (f x))
    (hgf : ∀ x, PairBounds L R x → g (f x) = x)
    (k : Nat) {x y : Nat × Nat} (hx : PairBounds L R x) (hy : PairBounds L R y)
    (h : f^[k] x = f^[k] y) : x = y := by
  have h1 := iterate_inv hf hgf k x hx
  rw [h, iterate_inv hf hgf k y hy] at h1
  exact h1.symm

/-- On the finite bounded state space a bijective pass returns to its
starting point within the size of the space. -/
theorem iterate_returns {L R : Nat} {f g : Nat × Nat → Nat × Nat}
    (hf : ∀ x, PairBounds L R x → PairBounds L R (f x))
    (hgf : ∀ x, PairBounds L R x → g (f x) = x)
    {x : Nat × Nat} (hx : PairBounds L R x) :
    ∃ k, 1 ≤ k ∧ k ≤ L * R ∧ f^[k] x = x := by
  have hmaps : ∀ i ∈ Finset.range (L * R + 1),
      comb L (f^[i] x) ∈ Finset.range (L * R) := by
    intro i _
    rw [Finset.mem_range]
    exact comb_lt (iterate_bounds hf i x hx)
  obtain ⟨i, hi, j, hj, hij, heq⟩ :=
    Finset.exists_ne_map_eq_of_card_lt_of_maps_to
      (by simp) hmaps
  rw [Finset.mem_range] at hi hj
  have hpair : ∀ {a b : Nat}, a < b → b < L * R + 1 →
      comb L (f^[a] x) = comb L (f^[b] x) → ∃ k, 1 ≤ k ∧ k ≤ L * R ∧ f^[k] x = x := by
    intro a b hab hblt hcomb
    have hfa := iterate_bounds hf a x hx
    have hfb := iterate_bounds hf b x hx
    have hxeq : f^[a] x = f^[b] x := comb_inj hfa hfb hcomb
    have hsplit : f^[a] (f^[b - a] x) = f^[a] x := by
      rw [← Function.iterate_add_apply]
      rw [(by omega : a + (b - a) = b)]
      exact hxeq.symm
    have hk : f^[b - a] x = x :=
      iterate_inj hf hgf a (iterate_bounds hf (b - a) x hx) hx hsplit
    exact ⟨b - a, by omega, by omega, hk⟩
  rcases Nat.lt_or_ge i j with hlt | hge
  · exact hpair hlt hj heq
  · have hlt : j < i := by omega
    exact hpair hlt hi heq.symm

/-- Soundness of the walk: a returned value is the recombination of the
first iterate that lands within maxValue. -/
theorem walk_sound {L R MV : Nat} {f : Nat × Nat → Nat × Nat}
    (hf : ∀ x, PairBounds L R x → PairBounds L R (f x)) (hLR : L * R ≤ two64) :
    ∀ (fuel : Nat) (x : Nat × Nat), PairBounds L R x →
    ∀ y, walk f L MV fuel x = some y →
    ∃ k, 1 ≤ k ∧ k ≤ fuel ∧ y = comb L (f^[k] x) ∧ comb L (f^[k] x) ≤ MV ∧
      ∀ j, 1 ≤ j → j < k → MV < comb L (f^[j] x) := by
  intro fuel
  induction fuel with
  | zero => intro x _ y hw; cases hw
  | succ fuel ih =>
    intro x hx y hw
    rw [walk] at hw
    have hfx := hf x hx
    have hmod : (((f x).1 + (f x).2 * L) % two64) = comb L (f x) :=
      comb_mod64 hfx hLR
    rw [hmod] at hw
    by_cases hin : comb L (f x) ≤ MV
    · rw [if_pos hin] at hw
      cases hw
      refine ⟨1, le_refl _, by omega, ?_, ?_, by omega⟩
      · rw [Function.iterate_one]
      · rw [Function.iterate_one]; exact hin
    · rw [if_neg hin] at hw
      obtain ⟨k, hk1, hkf, hyk, hkin, hmin⟩ := ih (f x) hfx y hw
      refine ⟨k + 1, by omega, by omega, ?_, ?_, ?_⟩
      · rw [Function.iterate_succ_apply]; exact hyk
      · rw [Function.iterate_succ_apply]; exact hkin
      · intro j hj1 hjk
        rcases Nat.eq_or_lt_of_le hj1 with h1 | h1
        · rw [← h1, Function.iterate_one]; omega
        · have := hmin (j - 1) (by omega) (by omega)
          rw [← Function.iterate_succ_apply f (j - 1) x] at this
          have hj : (j - 1).succ = j := by omega
          rw [hj] at this
          exact this

/-- Completeness of the walk: if some iterate within the fuel budget lands
inside the range, the walk returns a value. -/
theorem walk_complete {L R MV : Nat} {f : Nat × Nat → Nat × Nat}
    (hf : ∀ x, PairBounds L R x → PairBounds L R (f x)) (hLR : L * R ≤ two64) :
    ∀ (fuel : Nat) (x : Nat × Nat), PairBounds L R x →
    (∃ k, 1 ≤ k ∧ k ≤ fuel ∧ comb L (f^[k] x) ≤ MV) →
    ∃ y, walk f L MV fuel x = some y := by
  intro fuel
  induction fuel with
  | zero => intro x _ ⟨k, hk⟩; omega
  | succ fuel ih =>
    intro x hx ⟨k, hk1, hkf, hkin⟩
    rw [walk]
    have hfx := hf x hx
    have hmod : (((f x).1 + (f x).2 * L) % two64) = comb L (f x) :=
      comb_mod64 hfx hLR
    rw [hmod]
    by_cases hin : comb L (f x) ≤ MV
    · rw [if_pos hin]
      exact ⟨comb L (f x), rfl⟩
    · rw [if_neg hin]
      refine ih (f x) hfx ⟨k - 1, ?_, by omega, ?_⟩
      · -- k cannot be 1, since the first iterate is out of range
        rcases Nat.eq_or_lt_of_le hk1 with h1 | h1
        · rw [← h1, Function.iterate_one] at hkin; omega
        · omega
      · rw [← Function.iterate_succ_apply f (k - 1) x]
        rcases Nat.eq_or_lt_of_le hk1 with h1 | h1
        · rw [← h1, Function.iterate_one] at hkin; omega
        · have hk : (k - 1).succ = k := by omega
          rw [hk]
          exact hkin

/-- Termination of the walk from any in range starting pair, with fuel the
size of the bounded state space. -/
theorem walk_term {L R MV : Nat} {f g : Nat × Nat → Nat × Nat}
    (hf : ∀ x, PairBounds L R x → PairBounds L R (f x))
    (hgf : ∀ x, PairBounds L R x → g (f x) = x) (hLR : L * R ≤ two64)
    {fuel : Nat} (hfuel : L * R ≤ fuel)
    {x : Nat × Nat} (hx : PairBounds L R x) (hin : comb L x ≤ MV) :
    ∃ y, walk f L MV fuel x = some y := by
  obtain ⟨k, hk1, hkc, hkret⟩ := iterate_returns hf hgf hx
  refine walk_complete hf hLR fuel x hx ⟨k, hk1, by omega, ?_⟩
  rw [hkret]
  exact hin

/-- Running the inverse walk from the point the forward walk returned
recovers the starting combination. -/
theorem walk_back {L R MV : Nat} {f g : Nat × Nat → Nat × Nat}
    (hf : ∀ x, PairBounds L R x → PairBounds L R (f x))
    (hgf : ∀ x, PairBounds L R x → g (f x) = x) (hLR : L * R ≤ two64) :
    ∀ (k fuel : Nat) (x : Nat × Nat), 1 ≤ k → k ≤ fuel → PairBounds L R x →
    comb L x ≤ MV → (∀ j, 1 ≤ j → j < k → MV < comb L (f^[j] x)) →
    walk g L MV fuel (f^[k] x) = some (comb L x) := by
  intro k
  induction k with
  | zero => intro fuel x h1; omega
  | succ k ih =>
    intro fuel x _ hkf hx hin hmin
    obtain ⟨fu, rfl⟩ : ∃ fu, fuel = fu + 1 := ⟨fuel - 1, by omega⟩
    rw [walk]
    have hfk1 : PairBounds L R (f^[k + 1] x) := iterate_bounds hf (k + 1) x hx
    have hfk : PairBounds L R (f^[k] x) := iterate_bounds hf k x hx
    have hstep : g (f^[k + 1] x) = f^[k] x := by
      rw [Function.iterate_succ_apply' f]
      exact hgf (f^[k] x) hfk
    rw [hstep]
    have hmod : ((f^[k] x).1 + (f^[k] x).2 * L) % two64 = comb L (f^[k] x) :=
      comb_mod64 hfk hLR
    rw [hmod]
    cases Nat.eq_zero_or_pos k with
    | inl hk0 =>
      subst hk0
      rw [Function.iterate_zero_apply]
      rw [if_pos hin]
    | inr hkpos =>
      have hout : MV < comb L (f^[k] x) := hmin k hkpos (by omega)
      rw [if_neg (by omega)]
      exact ih fu x (by omega) (by omega) hx hin
        (fun j hj1 hjk => hmin j hj1 (by omega))

/-! Instantiation of the walk theory with the round passes of encode. -/

/-- Adding a value modulo L and then subtracting it modulo L cancels. -/
theorem add_mod_sub_cancel {a q L : Nat} (ha : a < L) (hq : q < L) :
    ((a + q) % L + L - q) % L = a := by
  have h1 : (a + q) % L + L - q = (a + q) % L + (L - q) := by omega
  rw [h1, Nat.mod_add_mod, (by omega : a + q + (L - q) = a + L),
    Nat.add_mod_right, Nat.mod_eq_of_lt ha]

/-- Subtracting a value modulo L and then adding it modulo L cancels. -/
theorem sub_mod_add_cancel {a q L : Nat} (ha : a < L) (hq : q < L) :
    ((a + L - q) % L + q) % L = a := by
  rw [Nat.mod_add_mod, (by omega : a + L - q + q = a + L),
    Nat.add_mod_right, Nat.mod_eq_of_lt ha]

/-- One round keeps both halves below their radices. -/
theorem roundStep_bounds {n : Network} (hL : 0 < n.leftRadix)
    (hR : 0 < n.rightRadix) (eh : Nat) (invert : Bool) {ab : Nat × Nat}
    (hab : PairBounds n.leftRadix n.rightRadix ab) (rd : Nat) :
    PairBounds n.leftRadix n.rightRadix (roundStep n eh invert ab rd) := by
  obtain ⟨h1, h2⟩ := hab
  simp only [roundStep]
  split
  · cases invert <;> simp only [Bool.false_eq_true, if_false, if_true] <;>
      exact ⟨Nat.mod_lt _ hL, h2⟩
  · cases invert <;> simp only [Bool.false_eq_true, if_false, if_true] <;>
      exact ⟨h1, Nat.mod_lt _ hR⟩

/-- The inverse round undoes the forward round at the same index. -/
theorem roundStep_cancel1 {n : Network} (hL : 0 < n.leftRadix)
    (hR : 0 < n.rightRadix) (eh : Nat) {ab : Nat × Nat}
    (hab : PairBounds n.leftRadix n.rightRadix ab) (rd : Nat) :
    roundStep n eh true (roundStep n eh false ab rd) rd = ab := by
  obtain ⟨a, b⟩ := ab
  obtain ⟨h1, h2⟩ := hab
  simp only [roundStep, Bool.false_eq_true, if_false, if_true]
  split
  · simp only []
    rw [add_mod_sub_cancel h1 (Nat.mod_lt _ hL)]
  · simp only []
    rw [add_mod_sub_cancel h2 (Nat.mod_lt _ hR)]

/-- The forward round undoes the inverse round at the same index. -/
theorem roundStep_cancel2 {n : Network} (hL : 0 < n.leftRadix)
    (hR : 0 < n.rightRadix) (eh : Nat) {ab : Nat × Nat}
    (hab : PairBounds n.leftRadix n.rightRadix ab) (rd : Nat) :
    roundStep n eh false (roundStep n eh true ab rd) rd = ab := by
  obtain ⟨a, b⟩ := ab
  obtain ⟨h1, h2⟩ := hab
  simp only [roundStep, Bool.false_eq_true, if_false, if_true]
  split
  · simp only []
    rw [sub_mod_add_cancel h1 (Nat.mod_lt _ hL)]
  · simp only []
    rw [sub_mod_add_cancel h2 (Nat.mod_lt _ hR)]

/-- Folding a bounds preserving step over any round list preserves the
bounds. -/
theorem foldl_bounds {L R : Nat} {step : Nat × Nat → Nat → Nat × Nat}
    (hstep : ∀ x r, PairBounds L R x → PairBounds L R (step x r)) :
    ∀ (l : List Nat) (ab : Nat × Nat), PairBounds L R ab →
    PairBounds L R (l.foldl step ab) := by
  intro l
  induction l with
  | nil => intro ab hab; exact hab
  | cons r t ih =>
    intro ab hab
    rw [List.foldl_cons]
    exact ih (step ab r) (hstep ab r hab)

/-- Folding the inverse steps over the reversed round list undoes folding
the forward steps over the round list. -/
theorem foldl_reverse_inv {L R : Nat} {sF sI : Nat × Nat → Nat → Nat × Nat}
    (hstep : ∀ x r, PairBounds L R x → PairBounds L R (sF x r))
    (hinv : ∀ x r, PairBounds L R x → sI (sF x r) r = x) :
    ∀ (l : List Nat) (ab : Nat × Nat), PairBounds L R ab →
    (l.reverse).foldl sI (l.foldl sF ab) = ab := by
  intro l
  induction l with
  | nil => intro ab _; rfl
  | cons r t ih =>
    intro ab hab
    rw [List.foldl_cons, List.reverse_cons, List.foldl_append]
    rw [ih (sF ab r) (hstep ab r hab)]
    simp only [List.foldl_cons, List.foldl_nil]
    exact hinv ab r hab

/-- A full pass keeps both halves below their radices. -/
theorem runPass_bounds {n : Network} (hL : 0 < n.leftRadix)
    (hR : 0 < n.rightRadix) (eh : Nat) (invert : Bool) {ab : Nat × Nat}
    (hab : PairBounds n.leftRadix n.rightRadix ab) :
    PairBounds n.leftRadix n.rightRadix (runPass n eh invert ab) := by
  rw [runPass]
  exact foldl_bounds (fun x r hx => roundStep_bounds hL hR eh invert hx r) _ ab hab

/-- The inverse pass undoes the forward pass. -/
theorem runPass_cancel1 {n : Network} (hL : 0 < n.leftRadix)
    (hR : 0 < n.rightRadix) (eh : Nat) {ab : Nat × Nat}
    (hab : PairBounds n.leftRadix n.rightRadix ab) :
    runPass n eh true (runPass n eh false ab) = ab := by
  simp only [runPass, Bool.false_eq_true, if_false, if_true]
  exact foldl_reverse_inv
    (fun x r hx => roundStep_bounds hL hR eh false hx r)
    (fun x r hx => roundStep_cancel1 hL hR eh hx r)
    (List.range n.rounds) ab hab

/-- The forward pass undoes the inverse pass. -/
theorem runPass_cancel2 {n : Network} (hL : 0 < n.leftRadix)
    (hR : 0 < n.rightRadix) (eh : Nat) {ab : Nat × Nat}
    (hab : PairBounds n.leftRadix n.rightRadix ab) :
    runPass n eh false (runPass n eh true ab) = ab := by
  simp only [runPass, Bool.false_eq_true, if_false, if_true]
  have h := foldl_reverse_inv
    (fun x r hx => roundStep_bounds hL hR eh true hx r)
    (fun x r hx => roundStep_cancel2 hL hR eh hx r)
    ((List.range n.rounds).reverse) ab hab
  rw [List.reverse_reverse] at h
  exact h

/-! Characterisation of NewNetwork and encode. -/

/-- Length of the derived seed schedule. -/
theorem mkSeeds_length (s : Nat) : ∀ k, (mkSeeds s k).length = k := by
  intro k
  induction k generalizing s with
  | zero => rfl
  | succ k ih =>
    rw [mkSeeds, List.length_cons, ih (splitmix64 s)]

/-- Field content of a successfully constructed network. -/
theorem newNetwork_ok {mv s r : Nat} {e : Bool} {net : Network}
    (h : NewNetwork mv s r e = Except.ok net) :
    net.rounds = r ∧ net.maxValue = mv ∧ net.epochs = e ∧
    net.seeds = mkSeeds s r ∧ net.leftRadix = (findFactors mv).1 ∧
    net.rightRadix = (findFactors mv).2 ∧ r ≠ 0 := by
  simp only [NewNetwork] at h
  by_cases hr : r = 0
  · rw [if_pos hr] at h
    cases h
  · rw [if_neg hr] at h
    cases h
    exact ⟨rfl, rfl, rfl, rfl, rfl, rfl, hr⟩

/-- Radix facts carried by every successfully constructed network. -/
theorem newNetwork_radix {mv s r : Nat} {e : Bool} {net : Network}
    (hmv : mv < two64) (h : NewNetwork mv s r e = Except.ok net) :
    2 ≤ net.leftRadix ∧ 2 ≤ net.rightRadix ∧
    net.leftRadix ≤ net.rightRadix ∧
    mv + 1 ≤ net.leftRadix * net.rightRadix ∧
    net.leftRadix * net.rightRadix ≤ two64 := by
  obtain ⟨-, -, -, -, hlf, hrf, -⟩ := newNetwork_ok h
  obtain ⟨s1, s2, s3, s4, s5⟩ := findFactors_spec mv hmv
  rw [hlf, hrf]
  exact ⟨s1, s2, s3, s4, s5⟩

/-- The walk is deterministic: results agree across fuel budgets. -/
theorem walk_det {L MV : Nat} {f : Nat × Nat → Nat × Nat} :
    ∀ (fu1 fu2 : Nat) (x : Nat × Nat) (y1 y2 : Nat),
    walk f L MV fu1 x = some y1 → walk f L MV fu2 x = some y2 → y1 = y2 := by
  intro fu1
  induction fu1 with
  | zero => intro fu2 x y1 y2 h1; cases h1
  | succ fu1 ih =>
    intro fu2 x y1 y2 h1 h2
    cases fu2 with
    | zero => cases h2
    | succ fu2 =>
      rw [walk] at h1 h2
      by_cases hin : ((f x).1 + (f x).2 * L) % two64 ≤ MV
      · rw [if_pos hin] at h1 h2
        cases h1; cases h2; rfl
      · rw [if_neg hin] at h1 h2
        exact ih fu2 (f x) y1 y2 h1 h2

/-- encodeCore is deterministic across fuel budgets. -/
theorem encodeCore_det {net : Network} {es eh idx : Nat} {invert : Bool}
    {fu1 fu2 : Nat} {y1 y2 : Nat}
    (h1 : encodeCore net es eh idx invert fu1 = some y1)
    (h2 : encodeCore net es eh idx invert fu2 = some y2) : y1 = y2 := by
  rw [encodeCore] at h1 h2
  by_cases h0 : net.maxValue = 0
  · rw [if_pos h0] at h1 h2
    cases h1; cases h2; rfl
  · rw [if_neg h0] at h1 h2
    rcases hw1 : walk (runPass net eh invert) net.leftRadix net.maxValue fu1
        (idx % net.leftRadix, idx / net.leftRadix) with _ | w1
    · rw [hw1] at h1; cases h1
    · rcases hw2 : walk (runPass net eh invert) net.leftRadix net.maxValue fu2
          (idx % net.leftRadix, idx / net.leftRadix) with _ | w2
      · rw [hw2] at h2; cases h2
      · rw [hw1] at h1
        rw [hw2] at h2
        simp only [] at h1 h2
        cases h1; cases h2
        rw [walk_det fu1 fu2 _ w1 w2 hw1 hw2]

/-- encode is deterministic across fuel budgets. -/
theorem encode_det {net : Network} {index : Nat} {invert : Bool}
    {fu1 fu2 : Nat} {y1 y2 : Nat}
    (h1 : encode net index invert fu1 = Except.ok (some y1))
    (h2 : encode net index invert fu2 = Except.ok (some y2)) : y1 = y2 := by
  simp only [encode] at h1 h2
  by_cases hgt : index > net.maxValue
  · rw [if_pos hgt] at h1 h2
    by_cases hep : net.epochs
    · rw [if_pos hep] at h1 h2
      cases h1' : encodeCore net (index - index % ((net.maxValue + 1) % two64))
          (splitmix64 (index - index % ((net.maxValue + 1) % two64)))
          (index % ((net.maxValue + 1) % two64)) invert fu1 with
      | none => rw [h1'] at h1; cases h1
      | some w1 =>
        cases h2' : encodeCore net (index - index % ((net.maxValue + 1) % two64))
            (splitmix64 (index - index % ((net.maxValue + 1) % two64)))
            (index % ((net.maxValue + 1) % two64)) invert fu2 with
        | none => rw [h2'] at h2; cases h2
        | some w2 =>
          rw [h1'] at h1
          rw [h2'] at h2
          cases h1; cases h2
          exact encodeCore_det h1' h2'
    · rw [if_neg hep] at h1
      cases h1
  · rw [if_neg hgt] at h1 h2
    cases h1' : encodeCore net 0 0 index invert fu1 with
    | none => rw [h1'] at h1; cases h1
    | some w1 =>
      cases h2' : encodeCore net 0 0 index invert fu2 with
      | none => rw [h2'] at h2; cases h2
      | some w2 =>
        rw [h1'] at h1
        rw [h2'] at h2
        cases h1; cases h2
        exact encodeCore_det h1' h2'

/-- Inverse property of the two passes viewed in either direction. -/
theorem runPass_cancel {n : Network} (hL : 0 < n.leftRadix)
    (hR : 0 < n.rightRadix) (eh : Nat) (invert : Bool) {ab : Nat × Nat}
    (hab : PairBounds n.leftRadix n.rightRadix ab) :
    runPass n eh (!invert) (runPass n eh invert ab) = ab := by
  cases invert
  · exact runPass_cancel1 hL hR eh hab
  · exact runPass_cancel2 hL hR eh hab

/-- Round trip of encode on an in range index: the call returns a value
within maxValue and the opposite direction maps it back, both with fuel
equal to the radix product. -/
theorem encode_ok {mv s r : Nat} {e : Bool} {net : Network} (hmv : mv < two64)
    (h : NewNetwork mv s r e = Except.ok net) (invert : Bool) {index : Nat}
    (hidx : index ≤ mv) :
    ∃ w, encode net index invert (net.leftRadix * net.rightRadix)
        = Except.ok (some w) ∧ w ≤ mv ∧
      encode net w (!invert) (net.leftRadix * net.rightRadix)
        = Except.ok (some index) := by
  obtain ⟨-, hmax, -, -, -, -, -⟩ := newNetwork_ok h
  obtain ⟨hl2, hr2, -, hcov, hbnd⟩ := newNetwork_radix hmv h
  by_cases h0 : mv = 0
  · have hi0 : index = 0 := by omega
    subst hi0
    have hcore : ∀ (inv : Bool) (fu : Nat), encode net 0 inv fu = Except.ok (some 0) := by
      intro inv fu
      simp only [encode, encodeCore, hmax]
      rw [if_neg (by omega : ¬ (0 : Nat) > mv), if_pos h0]
    exact ⟨0, hcore invert _, by omega, hcore (!invert) _⟩
  · have hL0 : 0 < net.leftRadix := by omega
    have hR0 : 0 < net.rightRadix := by omega
    have hfb : ∀ x, PairBounds net.leftRadix net.rightRadix x →
        PairBounds net.leftRadix net.rightRadix (runPass net 0 invert x) :=
      fun x hx => runPass_bounds hL0 hR0 0 invert hx
    have hgf : ∀ x, PairBounds net.leftRadix net.rightRadix x →
        runPass net 0 (!invert) (runPass net 0 invert x) = x :=
      fun x hx => runPass_cancel hL0 hR0 0 invert hx
    have hx0 : PairBounds net.leftRadix net.rightRadix
        (index % net.leftRadix, index / net.leftRadix) := by
      refine ⟨Nat.mod_lt _ hL0, ?_⟩
      rw [Nat.div_lt_iff_lt_mul hL0]
      calc index ≤ mv := hidx
      _ < net.leftRadix * net.rightRadix := by omega
      _ = net.rightRadix * net.leftRadix := Nat.mul_comm _ _
    have hcomb : comb net.leftRadix (index % net.leftRadix, index / net.leftRadix)
        = index := Nat.mod_add_div' index net.leftRadix
    have hcin : comb net.leftRadix (index % net.leftRadix, index / net.leftRadix)
        ≤ net.maxValue := by rw [hcomb]; omega
    obtain ⟨w0, hw⟩ := walk_term hfb hgf hbnd (le_refl _) hx0 hcin
    obtain ⟨k, hk1, hkf, hyk, hkin, hmin⟩ :=
      walk_sound hfb hbnd (net.leftRadix * net.rightRadix) _ hx0 w0 hw
    have hw0 : w0 ≤ mv := by rw [hyk]; omega
    have hkb : PairBounds net.leftRadix net.rightRadix
        ((runPass net 0 invert)^[k] (index % net.leftRadix, index / net.leftRadix)) :=
      iterate_bounds hfb k _ hx0
    have hsplit : (w0 % net.leftRadix, w0 / net.leftRadix)
        = (runPass net 0 invert)^[k] (index % net.leftRadix, index / net.leftRadix) := by
      rw [hyk]
      exact split_comb hkb
    have hback := walk_back hfb hgf hbnd k (net.leftRadix * net.rightRadix) _
      hk1 hkf hx0 hcin hmin
    refine ⟨w0, ?_, hw0, ?_⟩
    · simp only [encode, encodeCore]
      rw [if_neg (by omega : ¬ index > net.maxValue), if_neg (by omega : ¬ net.maxValue = 0)]
      rw [hw]
      have : w0 + 0 < two64 := by omega
      simp only [Nat.add_zero, Nat.mod_eq_of_lt (by omega : w0 < two64)]
    · simp only [encode, encodeCore]
      rw [if_neg (by omega : ¬ w0 > net.maxValue), if_neg (by omega : ¬ net.maxValue = 0)]
      rw [hsplit, hback, hcomb]
      simp only [Nat.add_zero, Nat.mod_eq_of_lt (by omega : index < two64)]

/-- Round trip of encode on an out of range index under epochs, for a
nondegenerate domain and a block that fits inside uint64: the result stays
inside the block and the opposite direction maps it back. -/
theorem encode_epoch_ok {mv s r : Nat} {net : Network} (hmv : mv < two64)
    (hm1 : 1 ≤ mv) (h : NewNetwork mv s r true = Except.ok net) (invert : Bool)
    {index : Nat} (hidx : index < two64) (hgt : mv < index)
    (hfit : index - index % (mv + 1) + mv < two64) :
    ∃ w, encode net index invert (net.leftRadix * net.rightRadix)
        = Except.ok (some w) ∧
      index - index % (mv + 1) ≤ w ∧ w ≤ index - index % (mv + 1) + mv ∧
      mv + 1 ≤ index - index % (mv + 1) ∧
      encode net w (!invert) (net.leftRadix * net.rightRadix)
        = Except.ok (some index) := by
  obtain ⟨-, hmax, hep, -, -, -, -⟩ := newNetwork_ok h
  obtain ⟨hl2, hr2, -, hcov, hbnd⟩ := newNetwork_radix hmv h
  have hD0 : 0 < mv + 1 := by omega
  have hmod := Nat.mod_lt index hD0
  have hdam := Nat.div_add_mod index (mv + 1)
  have hq1 : 1 ≤ index / (mv + 1) := (Nat.one_le_div_iff hD0).mpr (by omega)
  have hes : mv + 1 ≤ index - index % (mv + 1) := by
    have : (mv + 1) * 1 ≤ (mv + 1) * (index / (mv + 1)) :=
      Nat.mul_le_mul_left _ hq1
    omega
  have hDlt : mv + 1 < two64 := by omega
  have hdz : (net.maxValue + 1) % two64 = mv + 1 := by
    rw [hmax]
    exact Nat.mod_eq_of_lt hDlt
  have hesmod : (index - index % (mv + 1)) % (mv + 1) = 0 := by
    have h1 : index - index % (mv + 1) = (mv + 1) * (index / (mv + 1)) := by omega
    rw [h1]
    exact Nat.mul_mod_right _ _
  have hL0 : 0 < net.leftRadix := by omega
  have hR0 : 0 < net.rightRadix := by omega
  have hoff : index % (mv + 1) ≤ mv := by omega
  set eh := splitmix64 (index - index % (mv + 1)) with hehdef
  have hfb : ∀ x, PairBounds net.leftRadix net.rightRadix x →
      PairBounds net.leftRadix net.rightRadix (runPass net eh invert x) :=
    fun x hx => runPass_bounds hL0 hR0 eh invert hx
  have hgf : ∀ x, PairBounds net.leftRadix net.rightRadix x →
      runPass net eh (!invert) (runPass net eh invert x) = x :=
    fun x hx => runPass_cancel hL0 hR0 eh invert hx
  set off := index % (mv + 1) with hoffdef
  have hx0 : PairBounds net.leftRadix net.rightRadix
      (off % net.leftRadix, off / net.leftRadix) := by
    refine ⟨Nat.mod_lt _ hL0, ?_⟩
    rw [Nat.div_lt_iff_lt_mul hL0]
    calc off ≤ mv := hoff
    _ < net.leftRadix * net.rightRadix := by omega
    _ = net.rightRadix * net.leftRadix := Nat.mul_comm _ _
  have hcomb : comb net.leftRadix (off % net.leftRadix, off / net.leftRadix)
      = off := Nat.mod_add_div' off net.leftRadix
  have hcin : comb net.leftRadix (off % net.leftRadix, off / net.leftRadix)
      ≤ net.maxValue := by rw [hcomb]; omega
  obtain ⟨w0, hw⟩ := walk_term hfb hgf hbnd (le_refl _) hx0 hcin
  obtain ⟨k, hk1, hkf, hyk, hkin, hmin⟩ :=
    walk_sound hfb hbnd (net.leftRadix * net.rightRadix) _ hx0 w0 hw
  have hw0 : w0 ≤ mv := by rw [hyk]; omega
  have hkb : PairBounds net.leftRadix net.rightRadix
      ((runPass net eh invert)^[k] (off % net.leftRadix, off / net.leftRadix)) :=
    iterate_bounds hfb k _ hx0
  have hsplit : (w0 % net.leftRadix, w0 / net.leftRadix)
      = (runPass net eh invert)^[k] (off % net.leftRadix, off / net.leftRadix) := by
    rw [hyk]
    exact split_comb hkb
  have hback := walk_back hfb hgf hbnd k (net.leftRadix * net.rightRadix) _
    hk1 hkf hx0 hcin hmin
  have hwlt : w0 + (index - off) < two64 := by omega
  have hwmod : (w0 + (index - off)) % (mv + 1) = w0 := by
    rw [Nat.add_mod, hoffdef, hesmod, Nat.add_zero, Nat.mod_mod_of_dvd,
      Nat.mod_eq_of_lt (by omega : w0 < mv + 1)]
    exact Dvd.intro 1 (by omega)
  refine ⟨w0 + (index - off), ?_, by omega, by omega, hes, ?_⟩
  · simp only [encode, encodeCore]
    rw [hdz]
    rw [if_pos (by omega : index > net.maxValue), if_pos hep]
    rw [if_neg (by omega : ¬ net.maxValue = 0)]
    rw [← hoffdef, ← hehdef, hw]
    simp only [Nat.mod_eq_of_lt hwlt]
  · simp only [encode, encodeCore]
    rw [hdz]
    rw [if_pos (by omega : w0 + (index - off) > net.maxValue), if_pos hep]
    rw [if_neg (by omega : ¬ net.maxValue = 0)]
    rw [hwmod]
    have hes2 : w0 + (index - off) - w0 = index - off := by omega
    rw [hes2, ← hehdef, hsplit, hback, hcomb]
    have hfin : off + (index - off) = index := by omega
    simp only []
    rw [hfin, Nat.mod_eq_of_lt hidx]

/-- The core always returns a value with fuel equal to the radix product,
for any epoch parameters and any in range offset. -/
theorem encodeCore_term {net : Network} (hL0 : 0 < net.leftRadix)
    (hR0 : 0 < net.rightRadix)
    (hcov : net.maxValue < net.leftRadix * net.rightRadix)
    (hbnd : net.leftRadix * net.rightRadix ≤ two64)
    (es eh : Nat) (invert : Bool) {off : Nat} (hoff : off ≤ net.maxValue) :
    ∃ w, encodeCore net es eh off invert (net.leftRadix * net.rightRadix)
      = some w := by
  by_cases h0 : net.maxValue = 0
  · refine ⟨0, ?_⟩
    simp only [encodeCore]
    rw [if_pos h0]
  · have hfb : ∀ x, PairBounds net.leftRadix net.rightRadix x →
        PairBounds net.leftRadix net.rightRadix (runPass net eh invert x) :=
      fun x hx => runPass_bounds hL0 hR0 eh invert hx
    have hgf : ∀ x, PairBounds net.leftRadix net.rightRadix x →
        runPass net eh (!invert) (runPass net eh invert x) = x :=
      fun x hx => runPass_cancel hL0 hR0 eh invert hx
    have hx0 : PairBounds net.leftRadix net.rightRadix
        (off % net.leftRadix, off / net.leftRadix) := by
      refine ⟨Nat.mod_lt _ hL0, ?_⟩
      rw [Nat.div_lt_iff_lt_mul hL0]
      calc off ≤ net.maxValue := hoff
      _ < net.leftRadix * net.rightRadix := hcov
      _ = net.rightRadix * net.leftRadix := Nat.mul_comm _ _
    have hcin : comb net.leftRadix (off % net.leftRadix, off / net.leftRadix)
        ≤ net.maxValue := by
      rw [comb, Nat.mod_add_div' off net.leftRadix]
      exact hoff
    obtain ⟨w0, hw⟩ := walk_term hfb hgf hbnd (le_refl _) hx0 hcin
    refine ⟨(w0 + es) % two64, ?_⟩
    simp only [encodeCore]
    rw [if_neg h0, hw]

/-- encode always returns a value on every accepted input, with fuel the
radix product: in range inputs always, any uint64 input under epochs. -/
theorem encode_term {mv s r : Nat} {e : Bool} {net : Network} (hmv : mv < two64)
    (h : NewNetwork mv s r e = Except.ok net) (invert : Bool) {index : Nat}
    (hidx : index < two64) (hacc : index ≤ mv ∨ e = true) :
    ∃ y, encode net index invert (net.leftRadix * net.rightRadix)
      = Except.ok (some y) := by
  obtain ⟨-, hmax, hep, -, -, -, -⟩ := newNetwork_ok h
  obtain ⟨hl2, hr2, -, hcov, hbnd⟩ := newNetwork_radix hmv h
  have hL0 : 0 < net.leftRadix := by omega
  have hR0 : 0 < net.rightRadix := by omega
  have hcov' : net.maxValue < net.leftRadix * net.rightRadix := by omega
  by_cases hle : index ≤ mv
  · obtain ⟨w, hw⟩ := encodeCore_term hL0 hR0 hcov' hbnd 0 0 invert
      (by omega : index ≤ net.maxValue)
    refine ⟨w, ?_⟩
    simp only [encode]
    rw [if_neg (by omega : ¬ index > net.maxValue), hw]
  · have he : e = true := by tauto
    have hD2 : mv + 1 < two64 := by
      rcases Nat.lt_or_ge (mv + 1) two64 with h1 | h1
      · exact h1
      · omega
    have hdz : (net.maxValue + 1) % two64 = mv + 1 := by
      rw [hmax]
      exact Nat.mod_eq_of_lt hD2
    have hoff : index % (mv + 1) ≤ net.maxValue := by
      have := Nat.mod_lt index (by omega : 0 < mv + 1)
      omega
    obtain ⟨w, hw⟩ := encodeCore_term hL0 hR0 hcov' hbnd
      (index - index % (mv + 1)) (splitmix64 (index - index % (mv + 1)))
      invert hoff
    refine ⟨w, ?_⟩
    simp only [encode]
    rw [hdz, if_pos (by omega : index > net.maxValue)]
    rw [hep, he, if_pos rfl, hw]

/-! Frame lemmas for the state threaded embedding of the pointer receiver. -/

/-- Threading the receiver through the round fold never rebinds it. -/
theorem foldl_roundStepSt (eh : Nat) (invert : Bool) (n : Network) :
    ∀ (l : List Nat) (ab : Nat × Nat),
    l.foldl (fun st round => roundStepSt st eh invert round) (n, ab)
      = (n, l.foldl (roundStep n eh invert) ab) := by
  intro l
  induction l with
  | nil => intro ab; rfl
  | cons r t ih =>
    intro ab
    rw [List.foldl_cons, List.foldl_cons]
    exact ih (roundStep n eh invert ab r)

/-- The state threaded pass returns the untouched receiver together with
the pure pass result. -/
theorem runPassSt_spec (n : Network) (eh : Nat) (invert : Bool) (ab : Nat × Nat) :
    runPassSt n eh invert ab = (n, runPass n eh invert ab) := by
  rw [runPassSt, runPass]
  exact foldl_roundStepSt eh invert n _ ab

/-- The state threaded walk returns the untouched receiver together with
the pure walk result. -/
theorem walkSt_spec (eh : Nat) (invert : Bool) :
    ∀ (fuel : Nat) (n : Network) (ab : Nat × Nat),
    walkSt n eh invert fuel ab
      = (walk (runPass n eh invert) n.leftRadix n.maxValue fuel ab, n) := by
  intro fuel
  induction fuel with
  | zero => intro n ab; rfl
  | succ fuel ih =>
    intro n ab
    rw [walkSt, walk]
    rw [runPassSt_spec]
    simp only []
    by_cases hin : ((runPass n eh invert ab).1 + (runPass n eh invert ab).2 * n.leftRadix)
        % two64 ≤ n.maxValue
    · rw [if_pos hin, if_pos hin]
    · rw [if_neg hin, if_neg hin]
      exact ih n (runPass n eh invert ab)

/-- The state threaded encode computes the pure encode and returns the
receiver unchanged. -/
theorem encodeSt_spec (n : Network) (index : Nat) (invert : Bool) (fuel : Nat) :
    encodeSt n index invert fuel = (encode n index invert fuel, n) := by
  simp only [encodeSt, encode, encodeCore]
  by_cases hgt : index > n.maxValue
  · rw [if_pos hgt, if_pos hgt]
    by_cases hep : n.epochs = true
    · rw [if_pos hep, if_pos hep]
      by_cases h0 : n.maxValue = 0
      · rw [if_pos h0, if_pos h0]
      · rw [if_neg h0, if_neg h0, walkSt_spec]
        simp only []
        cases walk (runPass n (splitmix64 (index - index % ((n.maxValue + 1) % two64)))
            invert) n.leftRadix n.maxValue fuel
            ((index % ((n.maxValue + 1) % two64)) % n.leftRadix,
             (index % ((n.maxValue + 1) % two64)) / n.leftRadix) with
        | none => rfl
        | some w => rfl
    · rw [if_neg hep, if_neg hep]
  · rw [if_neg hgt, if_neg hgt]
    by_cases h0 : n.maxValue = 0
    · rw [if_pos h0, if_pos h0]
    · rw [if_neg h0, if_neg h0, walkSt_spec]
      simp only []
      cases walk (runPass n 0 invert) n.leftRadix n.maxValue fuel
          (index % n.leftRadix, index / n.leftRadix) with
      | none => rfl
      | some w => rfl

/-- A single call leaves the receiver unchanged. -/
theorem encodeSt_state (n : Network) (index : Nat) (invert : Bool) (fuel : Nat) :
    (encodeSt n index invert fuel).2 = n := by
  rw [encodeSt_spec]

/-! Claim theorems. -/

/-- Claim C1 (amended): for every network built by NewNetwork, Map and
InvertMap are exact mutual inverses over the accepted inputs, provided
that, for an epoch extended input beyond maxValue, the domain is not
degenerate (maxValue at least 1) and the block fits inside uint64
(blockOrigin + maxValue below 2 to the 64); fuel is the radix product,
which the termination theorem shows suffices. -/
theorem map_invertMap_mutual_inverses (mv s r : Nat) (e : Bool) (net : Network)
    (index : Nat) (hmv : mv < two64) (h : NewNetwork mv s r e = Except.ok net)
    (hidx : index < two64)
    (hacc : index ≤ mv ∨
      (e = true ∧ 1 ≤ mv ∧ index - index % (mv + 1) + mv < two64)) :
    (∃ y, Map net index (net.leftRadix * net.rightRadix) = Except.ok (some y) ∧
      InvertMap net y (net.leftRadix * net.rightRadix) = Except.ok (some index)) ∧
    (∃ y, InvertMap net index (net.leftRadix * net.rightRadix) = Except.ok (some y) ∧
      Map net y (net.leftRadix * net.rightRadix) = Except.ok (some index)) := by
  by_cases hle : index ≤ mv
  · obtain ⟨w1, hw1, hb1, hr1⟩ := encode_ok hmv h false hle
    obtain ⟨w2, hw2, hb2, hr2⟩ := encode_ok hmv h true hle
    exact ⟨⟨w1, hw1, hr1⟩, ⟨w2, hw2, hr2⟩⟩
  · rcases hacc with hacc | ⟨he, hm1, hfit⟩
    · omega
    · subst he
      obtain ⟨w1, hw1, -, -, -, hr1⟩ :=
        encode_epoch_ok hmv hm1 h false hidx (by omega) hfit
      obtain ⟨w2, hw2, -, -, -, hr2⟩ :=
        encode_epoch_ok hmv hm1 h true hidx (by omega) hfit
      exact ⟨⟨w1, hw1, hr1⟩, ⟨w2, hw2, hr2⟩⟩

/-- Claim C1 counterexample: the claim as stated fails on the code.  With
epochs and maxValue 0, the index 1 maps to 0 (the epoch origin is
dropped), and inverting 0 gives 0, not 1.  With epochs and maxValue 9, the
index 2 to the 64 minus 1 maps through a wrapping uint64 addition to 1,
and inverting 1 gives 5, not the original index. -/
theorem map_invertMap_mutual_inverses_cex :
    NewNetwork 0 0 1 true = Except.ok netEpoch0 ∧
    Map netEpoch0 1 4 = Except.ok (some 0) ∧
    InvertMap netEpoch0 0 4 = Except.ok (some 0) ∧ (0 : Nat) ≠ 1 ∧
    NewNetwork 9 0 4 true = Except.ok netEpoch9 ∧
    Map netEpoch9 (two64 - 1) 12 = Except.ok (some 1) ∧
    InvertMap netEpoch9 1 12 = Except.ok (some 5) ∧ (5 : Nat) ≠ two64 - 1 := by
  refine ⟨rfl, rfl, rfl, by decide, rfl, rfl, rfl, by decide⟩

/-- Claim C1 witness. -/
theorem map_invertMap_mutual_inverses_witness :
    (∃ y, Map netPlain9 7 (netPlain9.leftRadix * netPlain9.rightRadix)
        = Except.ok (some y) ∧
      InvertMap netPlain9 y (netPlain9.leftRadix * netPlain9.rightRadix)
        = Except.ok (some 7)) ∧
    (∃ y, InvertMap netPlain9 7 (netPlain9.leftRadix * netPlain9.rightRadix)
        = Except.ok (some y) ∧
      Map netPlain9 y (netPlain9.leftRadix * netPlain9.rightRadix)
        = Except.ok (some 7)) :=
  map_invertMap_mutual_inverses 9 0 4 false netPlain9 7 (by decide) rfl
    (by decide) (Or.inl (by decide))

/-- Claim C2: with epochs disabled, Map restricted to the domain
0..maxValue is injective there, and every value of the domain is attained
from an input of the domain. -/
theorem map_bijection_on_domain (mv s r : Nat) (net : Network)
    (hmv : mv < two64) (h : NewNetwork mv s r false = Except.ok net) :
    (∀ i j y fi fj, i ≤ mv → j ≤ mv →
      Map net i fi = Except.ok (some y) →
      Map net j fj = Except.ok (some y) → i = j) ∧
    (∀ v, v ≤ mv → ∃ i, i ≤ mv ∧
      Map net i (net.leftRadix * net.rightRadix) = Except.ok (some v)) := by
  constructor
  · intro i j y fi fj hi hj hmi hmj
    obtain ⟨wi, hwi, hwib, hinvi⟩ := encode_ok hmv h false hi
    obtain ⟨wj, hwj, hwjb, hinvj⟩ := encode_ok hmv h false hj
    have hyi : wi = y := encode_det hwi hmi
    have hyj : wj = y := encode_det hwj hmj
    subst hyi
    subst hyj
    have h0 : (Except.ok (some i) : Except FeistelError (Option Nat))
        = Except.ok (some j) := hinvi.symm.trans hinvj
    injection h0 with h1
    exact Option.some.inj h1
  · intro v hv
    obtain ⟨w, hw, hwb, hback⟩ := encode_ok hmv h true hv
    exact ⟨w, hwb, hback⟩

/-- Claim C2 witness. -/
theorem map_bijection_on_domain_witness :
    (∀ i j y fi fj, i ≤ 3 → j ≤ 3 →
      Map netPlain3 i fi = Except.ok (some y) →
      Map netPlain3 j fj = Except.ok (some y) → i = j) ∧
    (∀ v, v ≤ 3 → ∃ i, i ≤ 3 ∧
      Map netPlain3 i (netPlain3.leftRadix * netPlain3.rightRadix)
        = Except.ok (some v)) :=
  map_bijection_on_domain 3 0 1 netPlain3 (by decide) rfl

/-- Claim C3 (amended): on every accepted input whose block is
nondegenerate and fits inside uint64, Map lands inside the block of its
input: blockOrigin <= Map(index) <= blockOrigin + maxValue, where
blockOrigin is 0 for an in range input. -/
theorem map_range_containment (mv s r : Nat) (e : Bool) (net : Network)
    (index : Nat) (hmv : mv < two64) (h : NewNetwork mv s r e = Except.ok net)
    (hidx : index < two64)
    (hacc : index ≤ mv ∨
      (e = true ∧ 1 ≤ mv ∧ index - index % (mv + 1) + mv < two64)) :
    ∃ y, Map net index (net.leftRadix * net.rightRadix) = Except.ok (some y) ∧
      index - index % (mv + 1) ≤ y ∧ y ≤ index - index % (mv + 1) + mv := by
  by_cases hle : index ≤ mv
  · obtain ⟨w, hw, hb, -⟩ := encode_ok hmv h false hle
    have hmod : index % (mv + 1) = index := Nat.mod_eq_of_lt (by omega)
    exact ⟨w, hw, by omega, by omega⟩
  · rcases hacc with hacc | ⟨he, hm1, hfit⟩
    · omega
    · subst he
      obtain ⟨w, hw, hb1, hb2, -, -⟩ :=
        encode_epoch_ok hmv hm1 h false hidx (by omega) hfit
      exact ⟨w, hw, hb1, hb2⟩

/-- Claim C3 counterexample: the claim as stated fails on the code.  With
epochs and maxValue 0, Map(1) returns 0, which lies below the block origin
1; with epochs and maxValue 9, Map of the all ones index wraps to 1, far
below its block origin 2 to the 64 minus 6. -/
theorem map_range_containment_cex :
    NewNetwork 0 0 1 true = Except.ok netEpoch0 ∧
    Map netEpoch0 1 4 = Except.ok (some 0) ∧
    1 - 1 % (0 + 1) = 1 ∧ ¬ (1 - 1 % (0 + 1) ≤ (0 : Nat)) ∧
    NewNetwork 9 0 4 true = Except.ok netEpoch9 ∧
    Map netEpoch9 (two64 - 1) 12 = Except.ok (some 1) ∧
    (two64 - 1) - (two64 - 1) % (9 + 1) = two64 - 6 ∧
    ¬ ((two64 - 1) - (two64 - 1) % (9 + 1) ≤ (1 : Nat)) := by
  refine ⟨rfl, rfl, by decide, by decide, rfl, rfl, by decide, by decide⟩

/-- Claim C3 witness. -/
theorem map_range_containment_witness :
    ∃ y, Map netEpoch9 21 (netEpoch9.leftRadix * netEpoch9.rightRadix)
        = Except.ok (some y) ∧
      21 - 21 % (9 + 1) ≤ y ∧ y ≤ 21 - 21 % (9 + 1) + 9 :=
  map_range_containment 9 0 4 true netEpoch9 21 (by decide) rfl (by decide)
    (Or.inr ⟨rfl, by decide, by decide⟩)

/-- Claim C4 (amended): an index beyond maxValue is rejected with the
IndexOutOfRange error when epochs are disabled (for any fuel, in both
directions); with epochs enabled it succeeds with a value at least
domainSize = maxValue+1, provided maxValue is at least 1 and the block
fits inside uint64. -/
theorem map_out_of_range (mv s r : Nat) (e : Bool) (net : Network)
    (index : Nat) (hmv : mv < two64) (h : NewNetwork mv s r e = Except.ok net)
    (hidx : index < two64) (hgt : mv < index) :
    (e = false → ∀ fuel,
      Map net index fuel = Except.error FeistelError.indexOutOfRange ∧
      InvertMap net index fuel = Except.error FeistelError.indexOutOfRange) ∧
    (e = true → 1 ≤ mv → index - index % (mv + 1) + mv < two64 →
      ∃ y, Map net index (net.leftRadix * net.rightRadix) = Except.ok (some y) ∧
        mv + 1 ≤ y) := by
  obtain ⟨-, hmax, hep, -, -, -, -⟩ := newNetwork_ok h
  constructor
  · intro he fuel
    rw [he] at hep
    constructor
    · simp only [Map, encode]
      rw [if_pos (by omega : index > net.maxValue), if_neg (by simp [hep])]
    · simp only [InvertMap, encode]
      rw [if_pos (by omega : index > net.maxValue), if_neg (by simp [hep])]
  · intro he hm1 hfit
    subst he
    obtain ⟨w, hw, hb1, -, hes, -⟩ :=
      encode_epoch_ok hmv hm1 h false hidx (by omega) hfit
    exact ⟨w, hw, by omega⟩

/-- Claim C4 counterexample: the success half of the claim fails as
stated.  With epochs and maxValue 0, Map(5) succeeds but returns 0, which
is below domainSize = 1; with epochs and maxValue 9, Map of the all ones
index wraps to 1, below domainSize = 10. -/
theorem map_out_of_range_cex :
    NewNetwork 0 0 1 true = Except.ok netEpoch0 ∧
    Map netEpoch0 5 4 = Except.ok (some 0) ∧ ¬ ((0 : Nat) + 1 ≤ 0) ∧
    NewNetwork 9 0 4 true = Except.ok netEpoch9 ∧
    Map netEpoch9 (two64 - 1) 12 = Except.ok (some 1) ∧ ¬ ((9 : Nat) + 1 ≤ 1) := by
  refine ⟨rfl, rfl, by decide, rfl, rfl, by decide⟩

/-- Claim C4 witness. -/
theorem map_out_of_range_witness :
    (false = false → ∀ fuel,
      Map netPlain9 10 fuel = Except.error FeistelError.indexOutOfRange ∧
      InvertMap netPlain9 10 fuel = Except.error FeistelError.indexOutOfRange) ∧
    (false = true → 1 ≤ 9 → 10 - 10 % (9 + 1) + 9 < two64 →
      ∃ y, Map netPlain9 10 (netPlain9.leftRadix * netPlain9.rightRadix)
          = Except.ok (some y) ∧ 9 + 1 ≤ y) :=
  map_out_of_range 9 0 4 false netPlain9 10 (by decide) rfl (by decide) (by decide)

/-- Claim C5: for every network built by NewNetwork the radices satisfy
leftRadix * rightRadix >= maxValue + 1 over unbounded integers, both are
at least 1, leftRadix <= rightRadix, and domains of size below 3 get the
fixed 2 by 2 pair. -/
theorem radix_invariant (mv s r : Nat) (e : Bool) (net : Network)
    (hmv : mv < two64) (h : NewNetwork mv s r e = Except.ok net) :
    1 ≤ net.leftRadix ∧ 1 ≤ net.rightRadix ∧
    mv + 1 ≤ net.leftRadix * net.rightRadix ∧
    net.leftRadix ≤ net.rightRadix ∧
    (mv + 1 < 3 → net.leftRadix = 2 ∧ net.rightRadix = 2) := by
  obtain ⟨h1, h2, h3, h4, -⟩ := newNetwork_radix hmv h
  obtain ⟨-, -, -, -, hlf, hrf, -⟩ := newNetwork_ok h
  refine ⟨by omega, by omega, h4, h3, ?_⟩
  intro hsmall
  rw [hlf, hrf, findFactors, if_pos (by omega : mv < 3)]
  exact ⟨rfl, rfl⟩

/-- Claim C5 witness. -/
theorem radix_invariant_witness :
    1 ≤ netPlain9.leftRadix ∧ 1 ≤ netPlain9.rightRadix ∧
    9 + 1 ≤ netPlain9.leftRadix * netPlain9.rightRadix ∧
    netPlain9.leftRadix ≤ netPlain9.rightRadix ∧
    (9 + 1 < 3 → netPlain9.leftRadix = 2 ∧ netPlain9.rightRadix = 2) :=
  radix_invariant 9 0 4 false netPlain9 (by decide) rfl

/-- Claim C6: on every accepted input (any in range index, and any uint64
index when epochs are enabled) the cycle walking loop of encode reaches an
in range recombination within leftRadix*rightRadix passes, in both
directions, because one pass is a bijection of the finite superset. -/
theorem encode_terminates (mv s r : Nat) (e : Bool) (net : Network)
    (invert : Bool) (index : Nat) (hmv : mv < two64)
    (h : NewNetwork mv s r e = Except.ok net) (hidx : index < two64)
    (hacc : index ≤ mv ∨ e = true) :
    ∃ y, encode net index invert (net.leftRadix * net.rightRadix)
      = Except.ok (some y) :=
  encode_term hmv h invert hidx hacc

/-- Claim C6 witness. -/
theorem encode_terminates_witness :
    ∃ y, encode netPlain9 7 false (netPlain9.leftRadix * netPlain9.rightRadix)
      = Except.ok (some y) :=
  encode_terminates 9 0 4 false netPlain9 false 7 (by decide) rfl (by decide)
    (Or.inl (by decide))

/-- Claim C7 (amended): for every domain size N = maxValue+1 with maxValue
at least 3 and maxValue not all ones, the splitter equals the following
description: N = 8 returns (2,4) directly; otherwise scan current downward
starting from the floor square root of N while current > 1 and current*2 >
N/current, return (current, N/current) on the first exact divisor, and
otherwise return the scanned current minimizing the excess
ceil(N/current)*current - N plus the distance between the two factors,
earlier (larger) candidates winning ties. -/
theorem findFactors_amended_description (mv : Nat) (h3 : 3 ≤ mv)
    (hall : mv ≠ two64 - 1) (hmv : mv < two64) :
    findFactors mv = amendedFindFactors mv :=
  findFactors_eq_amended mv h3 hall hmv

/-- Claim C7 counterexample: the claim as stated fails on the code.  For N
= 12 (maxValue 11) the claimed algorithm starts at the ceiling square root
4, finds 4 dividing 12 and returns (4, 3); the source starts at the floor
square root 3, finds 3 dividing 12 and returns (3, 4). -/
theorem findFactors_claimed_description_cex :
    claimedFindFactors 11 = (4, 3) ∧ findFactors 11 = (3, 4) ∧
    claimedFindFactors 11 ≠ findFactors 11 := by
  refine ⟨by decide, by decide, by decide⟩

/-- Claim C7 witness. -/
theorem findFactors_amended_description_witness :
    findFactors 13 = amendedFindFactors 13 :=
  findFactors_amended_description 13 (by decide) (by decide) (by decide)

/-- Claim C8: a zero round count is rejected with RoundsMustBeSet and no
network is produced; every nonzero round count succeeds and the seed
schedule has length equal to the round count. -/
theorem rounds_policy (mv s : Nat) (e : Bool) :
    NewNetwork mv s 0 e = Except.error FeistelError.roundsMustBeSet ∧
    ∀ r, 0 < r → ∃ net, NewNetwork mv s r e = Except.ok net ∧
      net.seeds.length = r := by
  constructor
  · rfl
  · intro r hr
    refine ⟨⟨r, mv, e, mkSeeds s r, (findFactors mv).1, (findFactors mv).2⟩, ?_,
      mkSeeds_length s r⟩
    simp only [NewNetwork]
    rw [if_neg (by omega)]

/-- Claim C8 witness. -/
theorem rounds_policy_witness :
    NewNetwork 9 0 0 false = Except.error FeistelError.roundsMustBeSet ∧
    ∃ net, NewNetwork 9 0 4 false = Except.ok net ∧ net.seeds.length = 4 :=
  ⟨(rounds_policy 9 0 false).1, (rounds_policy 9 0 false).2 4 (by decide)⟩

/-- Claim C9: any sequence of Map and InvertMap calls, with any indices,
directions and fuels, leaves every field of the network unchanged: the
receiver threaded through the calls is returned exactly as it started. -/
theorem network_unchanged_by_calls (n : Network) (calls : List (Bool × Nat × Nat)) :
    runCalls n calls = n := by
  induction calls generalizing n with
  | nil => rfl
  | cons c rest ih =>
    obtain ⟨invert, index, fuel⟩ := c
    rw [runCalls, encodeSt_state]
    exact ih n

/-- Claim C10: inside encode of a network with maxValue at least 1 all
intermediate halves stay in range: the initial split of an in range offset
is bounded, every round update preserves the bounds, each recombined
candidate stays below leftRadix*rightRadix, and re-splitting a candidate
recovers exactly the same halves. -/
theorem halves_stay_in_range (mv s r : Nat) (e : Bool) (net : Network)
    (hmv : mv < two64) (_hm1 : 1 ≤ mv) (h : NewNetwork mv s r e = Except.ok net) :
    (∀ off, off ≤ mv →
      off % net.leftRadix < net.leftRadix ∧
      off / net.leftRadix < net.rightRadix) ∧
    (∀ eh invert rd a b, a < net.leftRadix → b < net.rightRadix →
      (roundStep net eh invert (a, b) rd).1 < net.leftRadix ∧
      (roundStep net eh invert (a, b) rd).2 < net.rightRadix) ∧
    (∀ a b, a < net.leftRadix → b < net.rightRadix →
      a + b * net.leftRadix < net.leftRadix * net.rightRadix ∧
      (a + b * net.leftRadix) % net.leftRadix = a ∧
      (a + b * net.leftRadix) / net.leftRadix = b) := by
  obtain ⟨hl2, hr2, -, hcov, -⟩ := newNetwork_radix hmv h
  have hL0 : 0 < net.leftRadix := by omega
  have hR0 : 0 < net.rightRadix := by omega
  refine ⟨?_, ?_, ?_⟩
  · intro off hoff
    refine ⟨Nat.mod_lt _ hL0, ?_⟩
    rw [Nat.div_lt_iff_lt_mul hL0]
    calc off ≤ mv := hoff
    _ < net.leftRadix * net.rightRadix := by omega
    _ = net.rightRadix * net.leftRadix := Nat.mul_comm _ _
  · intro eh invert rd a b ha hb
    exact roundStep_bounds hL0 hR0 eh invert ⟨ha, hb⟩ rd
  · intro a b ha hb
    have hpb : PairBounds net.leftRadix net.rightRadix (a, b) := ⟨ha, hb⟩
    have hsp := split_comb hpb
    exact ⟨comb_lt hpb, congrArg Prod.fst hsp, congrArg Prod.snd hsp⟩

/-- Claim C10 witness. -/
theorem halves_stay_in_range_witness :
    (∀ off, off ≤ 9 →
      off % netPlain9.leftRadix < netPlain9.leftRadix ∧
      off / netPlain9.leftRadix < netPlain9.rightRadix) ∧
    (∀ eh invert rd a b, a < netPlain9.leftRadix → b < netPlain9.rightRadix →
      (roundStep netPlain9 eh invert (a, b) rd).1 < netPlain9.leftRadix ∧
      (roundStep netPlain9 eh invert (a, b) rd).2 < netPlain9.rightRadix) ∧
    (∀ a b, a < netPlain9.leftRadix → b < netPlain9.rightRadix →
      a + b * netPlain9.leftRadix < netPlain9.leftRadix * netPlain9.rightRadix ∧
      (a + b * netPlain9.leftRadix) % netPlain9.leftRadix = a ∧
      (a + b * netPlain9.leftRadix) / netPlain9.leftRadix = b) :=
  halves_stay_in_range 9 0 4 false netPlain9 (by decide) (by decide) rfl

end Feistel
